import Mathlib

set_option maxRecDepth 20000

/-!
Formal model of the Prime Anchor System repository.

Every definition below is a shallow embedding of a function of the Python
sources; the doc comment of each definition names the file and function it
is translated from.  Python integers are modelled as `Nat`: all values the
scripts manipulate are non-negative, and a membership test of a negative
number in a set of primes is always `False` in the source, which matches
truncated subtraction here together with the fact that the modelled
membership predicates reject `0` (the sets built by the scripts never
contain `0`).  Python `while` loops with an explicit numeric exit
condition are translated to structural recursion on the number of
iterations the exit condition still allows; the doc comments record the
correspondence.
-/

namespace PAS

/-- Helper is_clean_k of r_max-final-test.py (also the inline checks
`k == 1 or k in prime_set` used in the other scripts): a distance is clean
when it is 1 or a member of the prime set. -/
def is_clean_k (P : Nat → Bool) (k : Nat) : Bool :=
  k == 1 || P k

/-- Nearest-prime search of test_correction_law in prime-anchor-system.py
(the `while True` loop at lines 128-142).  Starting at distance d the loop
tests `anchor_sum - d` and `anchor_sum + d` for set membership, collecting
the lower hit first and then the upper hit at the first successful
distance; when nothing is found it breaks as soon as `anchor_sum + d`
exceeds the sieve limit.  The source loop therefore checks the distances
d, d+1, ..., and `rem` counts how many increments of d the exit condition
still allows: the top level call uses `rem = limit - S`, so the distances
1 .. limit + 1 - S are checked, exactly as in the source. -/
def anchorSearch (P : Nat → Bool) (S : Nat) : Nat → Nat → Option (Nat × List Nat)
  | d, rem =>
    let foundLower := P (S - d)
    let foundUpper := P (S + d)
    if foundLower || foundUpper then
      some (d, (if foundLower then [S - d] else []) ++ (if foundUpper then [S + d] else []))
    else
      match rem with
      | 0 => none
      | rem' + 1 => anchorSearch P S (d + 1) rem'

/-- Inner marking loop of both sieves, sieve_for_primes in
prime-anchor-system.py and sieve_up_to_r in heuristics-test.py:
`for multiple in range(p*p, limit+1, p): is_prime[multiple] = False`.
A position m is set to False exactly when p*p ≤ m ≤ limit and m is a
multiple of p (`m % p = 0`); every other position keeps its value. -/
def markMultiples (limit p : Nat) (s : Nat → Bool) : Nat → Bool :=
  fun m => if p * p ≤ m ∧ m ≤ limit ∧ m % p = 0 then false else s m

/-- State of the is_prime array right after initialisation in both sieves:
positions 0 and 1 are False, all others True. -/
def sieveInit : Nat → Bool :=
  fun m => decide (2 ≤ m)

/-- One iteration of the outer sieve loop: `if is_prime[p]:` run the
marking loop for p, otherwise leave the array unchanged. -/
def sievePass (limit : Nat) (s : Nat → Bool) (p : Nat) : Nat → Bool :=
  if s p then markMultiples limit p s else s

/-- The is_prime array after the outer loop has processed
p = 2, 3, ..., cnt + 1 (an empty loop when cnt = 0). -/
def sieveBits (limit cnt : Nat) : Nat → Bool :=
  (List.range' 2 cnt).foldl (sievePass limit) sieveInit

/-- sieve_for_primes of prime-anchor-system.py: the outer loop runs over
`range(2, int(math.sqrt(limit)) + 1)` (modelled with `Nat.sqrt`, which
agrees with the float computation on the script's ranges), and the prime
list is collected from `range(2, limit + 1)`.  The companion prime_set
holds exactly the same values. -/
def sieve_for_primes (limit : Nat) : List Nat :=
  (List.range' 2 (limit - 1)).filter (fun m => sieveBits limit (Nat.sqrt limit - 1) m)

/-- sieve_up_to_r of heuristics-test.py: returns [] for limit < 2, runs
the outer loop over `range(2, limit + 1)`, and collects the output from
`enumerate(is_prime)`, whose indices are 0 .. limit. -/
def sieve_up_to_r (limit : Nat) : List Nat :=
  if limit < 2 then []
  else (List.range (limit + 1)).filter (fun m => sieveBits limit (limit - 1) m)

/-- Record appended to successful_corrections in test_correction_law of
prime-anchor-system.py: original anchor, target prime q, composite k, the
correcting radius, which side corrected (sideNext = false for the
previous anchor, true for the next anchor), and the new distance. -/
structure CorrRec where
  anchor : Nat
  targetQ : Nat
  compositeK : Nat
  radius : Nat
  sideNext : Bool
  newK : Nat

/-- Record appended to correction_failures in test_correction_law:
anchor, the list of failed candidate primes, and the composite k. -/
structure FailRec where
  anchor : Nat
  failedQs : List Nat
  compositeK : Nat

/-- Record appended to law_ii_violations in test_correction_law:
anchor and the even composite k. -/
structure ViolRec where
  anchor : Nat
  compositeK : Nat

/-- Accumulated state of the test_correction_law scan: the lists
successful_corrections, correction_failures and law_ii_violations, the
set counterexample_ks (as a duplicate-free list), and the histogram
radius_counts (total function, 0 where the Python dict has no key). -/
structure ScanState where
  corrected : List CorrRec
  failures : List FailRec
  lawII : List ViolRec
  ks : List Nat
  hist : Nat → Nat

/-- Outcome of one iteration of the scan loop body: continue with a new
state, stop the whole scan (the `anchor_sum > SIEVE_LIMIT` break), or
raise an IndexError on a list access out of range. -/
inductive StepOut where
  | next (st : ScanState)
  | halt (st : ScanState)
  | oob

/-- Law III radius loop of test_correction_law (lines 170-202) for one
candidate prime q: for each radius in the given list (the source iterates
`range(1, MAX_CORRECTION_RADIUS + 1)`) it reads the previous anchor pair
at indices i-radius and i-radius+1, tests `abs(s_prev - q)` for
cleanliness, and only if that fails reads the next anchor pair at
i+radius and i+radius+1 and tests it; the first clean side stops the
loop.  `some (some (radius, sideNext, newK))` is a correction,
`some none` means the loop ran out of radii, `none` is an IndexError. -/
def correctionForQ (p : List Nat) (P : Nat → Bool) (i q : Nat) :
    List Nat → Option (Option (Nat × Bool × Nat))
  | [] => some none
  | radius :: rest =>
    match p[i - radius]?, p[i - radius + 1]? with
    | some a, some b =>
      let kPrev := Nat.dist (a + b) q
      if kPrev = 1 ∨ P kPrev = true then some (some (radius, false, kPrev))
      else
        match p[i + radius]?, p[i + radius + 1]? with
        | some c, some d =>
          let kNext := Nat.dist (c + d) q
          if kNext = 1 ∨ P kNext = true then some (some (radius, true, kNext))
          else correctionForQ p P i q rest
        | _, _ => none
    | _, _ => none

/-- Outer candidate loop of test_correction_law (lines 167-205): the
candidate primes q are tried in list order, each over the full radius
loop, stopping at the first candidate that is corrected; the event is
uncorrected only when every candidate fails every radius. -/
def correctionForEvent (p : List Nat) (P : Nat → Bool) (i maxR : Nat) :
    List Nat → Option (Option (Nat × Nat × Bool × Nat))
  | [] => some none
  | q :: qs =>
    match correctionForQ p P i q (List.range' 1 maxR) with
    | none => none
    | some (some (r, side, nk)) => some (some (q, r, side, nk))
    | some none => correctionForEvent p P i maxR qs

/-- Body of the main loop of test_correction_law for index i (lines
113-214 of prime-anchor-system.py): read the pair, stop the scan if the
anchor sum exceeds the sieve limit, run the nearest-prime search, skip a
clean anchor, record an even composite k as a Law II violation and skip
it, and otherwise record the odd composite k and run the correction
search, appending either a success record (and bumping the radius
histogram) or a failure record. -/
def scanStep (p : List Nat) (P : Nat → Bool) (limit maxR i : Nat) (st : ScanState) : StepOut :=
  match p[i]?, p[i + 1]? with
  | some pn, some pn1 =>
    let S := pn + pn1
    if limit < S then .halt st
    else
      match anchorSearch P S 1 (limit - S) with
      | none => .next st
      | some (k, qs) =>
        if 1 < k ∧ P k = false then
          if k % 2 = 0 then
            .next ⟨st.corrected, st.failures, st.lawII ++ [⟨S, k⟩], st.ks, st.hist⟩
          else
            let ks' := st.ks.insert k
            match correctionForEvent p P i maxR qs with
            | none => .oob
            | some (some (q, r, side, nk)) =>
              .next ⟨st.corrected ++ [⟨S, q, k, r, side, nk⟩], st.failures, st.lawII, ks',
                     fun x => if x = r then st.hist x + 1 else st.hist x⟩
            | some none =>
              .next ⟨st.corrected, st.failures ++ [⟨S, qs, k⟩], st.lawII, ks', st.hist⟩
        else .next st
  | _, _ => .oob

/-- Driver of the main loop of test_correction_law over a list of anchor
indices: `halt` ends the scan early with the state reached so far (the
source prints a warning and breaks), an IndexError aborts the run. -/
def scanLoop (p : List Nat) (P : Nat → Bool) (limit maxR : Nat) :
    List Nat → ScanState → Option ScanState
  | [], st => some st
  | i :: rest, st =>
    match scanStep p P limit maxR i st with
    | .next st' => scanLoop p P limit maxR rest st'
    | .halt st' => some st'
    | .oob => none

/-- Empty accumulators at the start of test_correction_law. -/
def initState : ScanState :=
  ⟨[], [], [], [], fun _ => 0⟩

/-- test_correction_law of prime-anchor-system.py: the scan runs over the
indices `range(start_index, MAX_PRIME_PAIRS_TO_TEST + start_index)` with
`start_index = MAX_CORRECTION_RADIUS + 1`, parametrised here by the
configured limit, maximum radius and pair count. -/
def test_correction_law (p : List Nat) (P : Nat → Bool) (limit maxR maxPairs : Nat) :
    Option ScanState :=
  scanLoop p P limit maxR (List.range' (maxR + 1) maxPairs) initState

/-- Pre-scan count check of test_correction_law (lines 89-93): the run
proceeds exactly when the prime list holds at least
MAX_PRIME_PAIRS_TO_TEST + MAX_CORRECTION_RADIUS + 2 entries. -/
def primeCountCheck (p : List Nat) (maxPairs maxR : Nat) : Bool :=
  decide (maxPairs + maxR + 2 ≤ p.length)

/-- Sum of the radius_counts histogram over all radii the correction
search can produce (1 .. maxR); the histogram is 0 everywhere else. -/
def histSum (h : Nat → Nat) (maxR : Nat) : Nat :=
  ((List.range' 1 maxR).map h).sum

/-- Configured sieve limit of prime-anchor-system.py. -/
def SIEVE_LIMIT : Nat := 67000000

/-- Configured pair count of prime-anchor-system.py. -/
def MAX_PRIME_PAIRS_TO_TEST : Nat := 2000000

/-- Configured maximum correction radius of prime-anchor-system.py. -/
def MAX_CORRECTION_RADIUS : Nat := 15

/-- Distance `abs(s_prev - q)` from the previous neighbour anchor at
radius r to the target prime q, as the correction searches compute it
(stated with default-0 reads; the theorems restrict to in-range
indices, where this agrees with the Python list accesses). -/
def prevNeighborK (p : List Nat) (i q r : Nat) : Nat :=
  Nat.dist (p.getD (i - r) 0 + p.getD (i - r + 1) 0) q

/-- Distance `abs(s_next - q)` from the next neighbour anchor at radius r
to the target prime q. -/
def nextNeighborK (p : List Nat) (i q r : Nat) : Nat :=
  Nat.dist (p.getD (i + r) 0 + p.getD (i + r + 1) 0) q

/-- Cleanliness of the previous-side neighbour distance at radius r:
it equals 1 or is in the prime set. -/
def prevClean (p : List Nat) (P : Nat → Bool) (i q r : Nat) : Prop :=
  prevNeighborK p i q r = 1 ∨ P (prevNeighborK p i q r) = true

/-- Cleanliness of the next-side neighbour distance at radius r. -/
def nextClean (p : List Nat) (P : Nat → Bool) (i q r : Nat) : Prop :=
  nextNeighborK p i q r = 1 ∨ P (nextNeighborK p i q r) = true

/-- Status field of the result dictionary of find_correction_radius in
heuristics-test.py: "FAIL: Too far", "SUCCESS: Law I Held",
"CORRECTED by S_n-r", "CORRECTED by S_n+r", or
"FAILURE: Max Radius Exceeded". -/
inductive FCRStatus where
  | tooFar
  | lawIHeld
  | correctedPrev
  | correctedNext
  | maxExceeded
deriving DecidableEq

/-- Result dictionary of find_correction_radius: the fields k, r and gap
together with the status tag. -/
structure FCRResult where
  k : Nat
  r : Nat
  gap : Nat
  status : FCRStatus
deriving DecidableEq

/-- Nearest-prime search of find_correction_radius in heuristics-test.py
(lines 75-91): the lower side is tested first and on a hit returns that
prime; only then the upper side; the safety check `if d >
PRIME_SEARCH_SAFETY_LIMIT: return ...` runs after the membership tests,
so the distances 1 .. safety + 1 are tested, and `rem` counts the
remaining allowed increments (the top level uses rem = safety). -/
def fcrSearch (P : Nat → Bool) (S : Nat) : Nat → Nat → Option (Nat × Nat)
  | d, rem =>
    if P (S - d) then some (d, S - d)
    else if P (S + d) then some (d, S + d)
    else
      match rem with
      | 0 => none
      | rem' + 1 => fcrSearch P S (d + 1) rem'

/-- Law III radius loop of find_correction_radius (lines 103-119): for
each radius (the source iterates `range(1, max_r + 1)`), the previous
anchor side is tested when its guard `idx_prev >= 1` holds and returns
first on success; then the next anchor side is tested when its guard
`idx_next + 1 < len(p_list)` holds; a side whose guard fails is skipped.
`some (radius, false)` is "CORRECTED by S_n-radius", `some (radius,
true)` is "CORRECTED by S_n+radius", `none` means no radius worked. -/
def fcrCorrection (p : List Nat) (P : Nat → Bool) (i q : Nat) : List Nat → Option (Nat × Bool)
  | [] => none
  | radius :: rest =>
    let tryPrev : Option (Nat × Bool) :=
      if 1 ≤ i - radius then
        if prevNeighborK p i q radius = 1 ∨ P (prevNeighborK p i q radius) = true then
          some (radius, false)
        else none
      else none
    match tryPrev with
    | some res => some res
    | none =>
      if i + radius + 1 < p.length then
        if nextNeighborK p i q radius = 1 ∨ P (nextNeighborK p i q radius) = true then
          some (radius, true)
        else fcrCorrection p P i q rest
      else fcrCorrection p P i q rest

/-- find_correction_radius of heuristics-test.py: reads the anchor pair
at index anchor_index, searches the nearest prime with the
lower-side-first bounded search, returns "SUCCESS: Law I Held" unless
k_min is composite (`k_min > 1 and k_min not in p_set`), and otherwise
runs the correction loop over radii 1 .. max_r, reporting the radius and
side of the first success or "FAILURE: Max Radius Exceeded" with r set to
max_r. -/
def find_correction_radius (p : List Nat) (P : Nat → Bool) (i safety maxR : Nat) : FCRResult :=
  let pn := p.getD i 0
  let pn1 := p.getD (i + 1) 0
  let S := pn + pn1
  let gap := pn1 - pn
  match fcrSearch P S 1 safety with
  | none => ⟨0, 0, gap, .tooFar⟩
  | some (kmin, q) =>
    if 1 < kmin ∧ P kmin = false then
      match fcrCorrection p P i q (List.range' 1 maxR) with
      | some (radius, false) => ⟨kmin, radius, gap, .correctedPrev⟩
      | some (radius, true) => ⟨kmin, radius, gap, .correctedNext⟩
      | none => ⟨kmin, maxR, gap, .maxExceeded⟩
    else ⟨kmin, 0, gap, .lawIHeld⟩

/-- failure_bins and total_failures of run_mod6_classifier_test in
mod6-classifier.py: bins maps the anchor value mod 6 and a composite k to
its frequency (defaultdict(int) semantics, 0 for missing keys). -/
structure Mod6State where
  bins : Nat → Nat → Nat
  total : Nat

/-- Nearest-prime search of run_mod6_classifier_test (lines 85-91): the
safety check `if search_dist > 1000: break` runs before the membership
tests, so exactly the distances 1 .. limit are tested and `rem` counts
the tests still allowed (the top level uses rem = 1000).  A none result
models `min_distance_k == 0`. -/
def mod6SearchLoop (P : Nat → Bool) (S : Nat) : Nat → Nat → Option Nat
  | _, 0 => none
  | d, rem + 1 =>
    if P (S - d) || P (S + d) then some d
    else mod6SearchLoop P S (d + 1) rem

/-- Body of the main loop of run_mod6_classifier_test for index i: read
the pair, run the bounded search, skip the anchor silently when the
search exhausts (`if min_distance_k == 0: continue`) or when k_min is
clean, and otherwise count the failure and bump its bin at
(anchor mod 6, k).  An out-of-range read is an IndexError (none). -/
def run_mod6_step (p : List Nat) (P : Nat → Bool) (searchLimit i : Nat) (st : Mod6State) :
    Option Mod6State :=
  match p[i]?, p[i + 1]? with
  | some pn, some pn1 =>
    let S := pn + pn1
    match mod6SearchLoop P S 1 searchLimit with
    | none => some st
    | some k =>
      if 1 < k ∧ P k = false then
        some ⟨fun m j => if m = S % 6 ∧ j = k then st.bins m j + 1 else st.bins m j,
              st.total + 1⟩
      else some st
  | _, _ => none

/-- Driver of run_mod6_classifier_test over the scanned indices
(`range(2, MAX_PRIME_PAIRS_TO_TEST + 1)` in the source). -/
def run_mod6_classifier_scan (p : List Nat) (P : Nat → Bool) (searchLimit : Nat) :
    List Nat → Mod6State → Option Mod6State
  | [], st => some st
  | i :: rest, st =>
    match run_mod6_step p P searchLimit i st with
    | some st' => run_mod6_classifier_scan p P searchLimit rest st'
    | none => none

/-- Empty accumulators of run_mod6_classifier_test. -/
def mod6Init : Mod6State := ⟨fun _ _ => 0, 0⟩

/-- Error taxonomy of the load operation: missing file, too few parsed
values, or a line that does not parse as an integer. -/
inductive LoadError where
  | NotFound
  | TooSmall
  | Malformed
deriving DecidableEq

/-- Python str.strip() whitespace test for the characters that occur in
a primes text file. -/
def isSpaceChar (c : Char) : Bool :=
  c == ' ' || c == '\t' || c == '\n' || c == '\r'

/-- Python line.strip(): drop leading and trailing whitespace of a line,
modelled as a character list. -/
def stripLine (l : List Char) : List Char :=
  ((l.dropWhile isSpaceChar).reverse.dropWhile isSpaceChar).reverse

/-- Digit run parsing used by Python int(): every character must be a
decimal digit and the value is read most significant first; none models
the ValueError of int() on a malformed string. -/
def parseDigits (cs : List Char) : Option Nat :=
  if cs = [] then none
  else if cs.all (fun c => c.isDigit) then
    some (cs.foldl (fun acc c => acc * 10 + (c.toNat - 48)) 0)
  else none

/-- Python int(s) on a stripped line: an optional sign followed by
decimal digits. -/
def parseInt (cs : List Char) : Option Int :=
  match cs with
  | '-' :: rest => (parseDigits rest).map (fun n => -(n : Int))
  | '+' :: rest => (parseDigits rest).map (fun n => (n : Int))
  | _ => (parseDigits cs).map (fun n => (n : Int))

/-- load_primes_from_file of heuristics-test.py: the file is modelled as
the list of its lines (each a character list), none when the path does
not exist (in the source `open` then raises FileNotFoundError); every
non-empty line (`if line.strip()`) is parsed as an integer
(`int(line.strip())`; a non-numeric line raises ValueError, modelled
Malformed), in file order, and the result is truncated to
ANALYTICAL_PRIME_COUNT entries when longer. -/
def load_primes_from_file (file : Option (List (List Char))) (analyticalPrimeCount : Nat) :
    Except LoadError (List Int) :=
  match file with
  | none => .error .NotFound
  | some lines =>
    match (lines.filter (fun l => !(stripLine l == []))).mapM
        (fun l => parseInt (stripLine l)) with
    | none => .error .Malformed
    | some vals => .ok (vals.take analyticalPrimeCount)

/-- Load-and-check pipeline: the callers (run_heuristic_analysis in
heuristics-test.py, test_correction_law in correction-decay-analysis.py)
abort with a fatal error before starting any scan when fewer values than
the configured minimum were parsed. -/
def loadPrimesChecked (file : Option (List (List Char)))
    (analyticalPrimeCount minCount : Nat) : Except LoadError (List Int) :=
  match load_primes_from_file file analyticalPrimeCount with
  | .error e => .error e
  | .ok l => if l.length < minCount then .error .TooSmall else .ok l

/-- Part 1 inner search of run_heuristic_analysis in heuristics-test.py
(lines 198-202): `while search_radius <= PRIME_SEARCH_SAFETY_LIMIT`
checks the bound before the body, so the distances 1 .. safety are
tested and k_min stays 0 when the search exhausts. -/
def heurKminLoop (P : Nat → Bool) (S : Nat) : Nat → Nat → Nat
  | _, 0 => 0
  | d, rem + 1 =>
    if P (S - d) || P (S + d) then d else heurKminLoop P S (d + 1) rem

/-- Part 1 of run_heuristic_analysis: count the anchors whose k_min is
clean (`k_min == 1 or (k_min > 1 and k_min in prime_set)`). -/
def heurObservedLoop (p : List Nat) (P : Nat → Bool) (safety : Nat) : List Nat → Nat → Nat
  | [], acc => acc
  | i :: rest, acc =>
    let S := p.getD i 0 + p.getD (i + 1) 0
    let kmin := heurKminLoop P S 1 safety
    heurObservedLoop p P safety rest
      (if kmin = 1 ∨ (1 < kmin ∧ P kmin = true) then acc + 1 else acc)

/-- Part 2 control search of run_heuristic_analysis (lines 227-232): the
lower side carries the guard `q_lower > 1`. -/
def ctlSearchLoop (P : Nat → Bool) (S : Nat) : Nat → Nat → Nat
  | _, 0 => 0
  | d, rem + 1 =>
    if (decide (1 < S - d) && P (S - d)) || P (S + d) then d
    else ctlSearchLoop P S (d + 1) rem

/-- Part 2 of run_heuristic_analysis: the random even control anchors.
The unseeded `random.randint` draw for index i is modelled by the oracle
g, and the drawn value is forced even
(`random_num if random_num % 2 == 0 else random_num + 1`). -/
def heurControlLoop (p : List Nat) (P : Nat → Bool) (safety : Nat) (g : Nat → Nat) :
    List Nat → Nat → Nat
  | [], acc => acc
  | i :: rest, acc =>
    let rn := g i
    let sc := if rn % 2 = 0 then rn else rn + 1
    let kmin := ctlSearchLoop P sc 1 safety
    heurControlLoop p P safety g rest
      (if kmin = 1 ∨ (1 < kmin ∧ P kmin = true) then acc + 1 else acc)

/-- Aggregate statistics of one run of run_heuristic_analysis: the
true-anchor clean count of Part 1 and the random control clean count of
Part 2. -/
structure HeurStats where
  observed : Nat
  control : Nat

/-- run_heuristic_analysis of heuristics-test.py over a loaded prime
list: Part 1 scans the true anchors deterministically, Part 2 rescans
with random even control anchors drawn from the oracle g; prime_set is
the membership set of the loaded list. -/
def run_heuristic_analysis (p : List Nat) (safety N : Nat) (g : Nat → Nat) : HeurStats :=
  ⟨heurObservedLoop p (fun x => p.contains x) safety (List.range' 1 N) 0,
   heurControlLoop p (fun x => p.contains x) safety g (List.range' 1 N) 0⟩

theorem anchorSearch_spec (P : Nat → Bool) (S : Nat) :
    ∀ rem d k qs, anchorSearch P S d rem = some (k, qs) →
      d ≤ k ∧ (P (S - k) = true ∨ P (S + k) = true) ∧
      qs = (if P (S - k) then [S - k] else []) ++ (if P (S + k) then [S + k] else []) ∧
      ∀ e, d ≤ e → e < k → P (S - e) = false ∧ P (S + e) = false := by
  intro rem
  induction rem with
  | zero =>
    intro d k qs h
    rw [anchorSearch] at h
    by_cases hf : (P (S - d) || P (S + d)) = true
    · simp only [hf, if_true] at h
      obtain ⟨rfl, rfl⟩ : d = k ∧ _ = qs := by
        have := h
        simp only [Option.some.injEq, Prod.mk.injEq] at this
        exact ⟨this.1, this.2⟩
      refine ⟨le_refl _, ?_, rfl, ?_⟩
      · rcases Bool.or_eq_true_iff.mp hf with h1 | h1
        · exact Or.inl h1
        · exact Or.inr h1
      · intro e he1 he2; omega
    · simp only [Bool.not_eq_true] at hf
      simp only [hf, if_false] at h
      exact absurd h (by simp)
  | succ n ih =>
    intro d k qs h
    rw [anchorSearch] at h
    by_cases hf : (P (S - d) || P (S + d)) = true
    · simp only [hf, if_true] at h
      obtain ⟨rfl, rfl⟩ : d = k ∧ _ = qs := by
        have := h
        simp only [Option.some.injEq, Prod.mk.injEq] at this
        exact ⟨this.1, this.2⟩
      refine ⟨le_refl _, ?_, rfl, ?_⟩
      · rcases Bool.or_eq_true_iff.mp hf with h1 | h1
        · exact Or.inl h1
        · exact Or.inr h1
      · intro e he1 he2; omega
    · simp only [Bool.not_eq_true] at hf
      simp only [hf, if_false] at h
      obtain ⟨h1, h2, h3, h4⟩ := ih (d + 1) k qs h
      have hlow : P (S - d) = false := by
        have := hf
        cases hp : P (S - d) <;> simp [hp] at this ⊢
      have hup : P (S + d) = false := by
        have := hf
        cases hp : P (S + d) <;> simp [hp] at this ⊢
      refine ⟨by omega, h2, h3, ?_⟩
      intro e he1 he2
      rcases Nat.eq_or_lt_of_le he1 with rfl | hlt
      · exact ⟨hlow, hup⟩
      · exact h4 e hlt he2

theorem foldl_sievePass_gt (limit : Nat) (l : List Nat) :
    ∀ (s : Nat → Bool) (m : Nat), limit < m → (l.foldl (sievePass limit) s) m = s m := by
  induction l with
  | nil => intro s m _; rfl
  | cons p t ih =>
    intro s m hm
    simp only [List.foldl_cons]
    rw [ih _ m hm]
    unfold sievePass markMultiples
    by_cases hsp : s p = true
    · simp only [hsp, if_true]
      have : ¬(p * p ≤ m ∧ m ≤ limit ∧ m % p = 0) := by
        rintro ⟨_, h2, _⟩; omega
      simp [this]
    · simp only [Bool.not_eq_true] at hsp
      simp [hsp]

theorem foldl_sievePass_false (limit : Nat) (l : List Nat) :
    ∀ (s : Nat → Bool) (m : Nat), s m = false → (l.foldl (sievePass limit) s) m = false := by
  induction l with
  | nil => intro s m h; exact h
  | cons p t ih =>
    intro s m hm
    simp only [List.foldl_cons]
    apply ih
    unfold sievePass markMultiples
    by_cases hsp : s p = true
    · simp only [hsp, if_true]
      by_cases hc : p * p ≤ m ∧ m ≤ limit ∧ m % p = 0
      · simp [hc]
      · simp [hc, hm]
    · simp only [Bool.not_eq_true] at hsp
      simp [hsp, hm]

theorem sieveBits_gt (limit cnt m : Nat) (hm : limit < m) :
    sieveBits limit cnt m = sieveInit m :=
  foldl_sievePass_gt limit _ sieveInit m hm

theorem sieveBits_lt_two (limit cnt m : Nat) (hm : m < 2) :
    sieveBits limit cnt m = false := by
  apply foldl_sievePass_false
  unfold sieveInit
  simp; omega

theorem sieveBits_iff (limit : Nat) :
    ∀ cnt m, 2 ≤ m → m ≤ limit →
      (sieveBits limit cnt m = true ↔
        ∀ d, 2 ≤ d → d < 2 + cnt → ¬(d * d ≤ m ∧ d ∣ m)) := by
  intro cnt
  induction cnt with
  | zero =>
    intro m h2 _
    unfold sieveBits
    constructor
    · intro _ d hd1 hd2; omega
    · intro _
      show sieveInit m = true
      unfold sieveInit
      simp only [decide_eq_true_eq]
      omega
  | succ n ih =>
    intro m h2 hml
    have hconcat : List.range' 2 (n + 1) = List.range' 2 n ++ [2 + n] := by
      simpa using List.range'_1_concat 2 n
    have hunf : sieveBits limit (n + 1) m = sievePass limit (sieveBits limit n) (2 + n) m := by
      unfold sieveBits
      rw [hconcat, List.foldl_append]
      rfl
    rw [hunf]
    set p := 2 + n with hpdef
    set s := sieveBits limit n with hsdef
    have hp0 : 0 < p := by omega
    have hpsq : p ≤ p * p := Nat.le_mul_of_pos_left p hp0
    by_cases hplim : limit < p
    · have hsp : s p = true := by
        rw [hsdef, sieveBits_gt limit n p hplim]
        unfold sieveInit
        simp only [decide_eq_true_eq]
        omega
      unfold sievePass
      simp only [hsp, if_true]
      unfold markMultiples
      have hcond : ¬(p * p ≤ m ∧ m ≤ limit ∧ m % p = 0) := by
        rintro ⟨hc1, hc2, _⟩
        omega
      simp only [hcond, if_false]
      rw [ih m h2 hml]
      constructor
      · intro h d hd1 hd2
        by_cases hdn : d < 2 + n
        · exact h d hd1 hdn
        · have hdp : d = p := by omega
          subst hdp
          rintro ⟨hc1, _⟩
          omega
      · intro h d hd1 hd2
        exact h d hd1 (by omega)
    · push_neg at hplim
      by_cases hsp : s p = true
      · unfold sievePass
        simp only [hsp, if_true]
        unfold markMultiples
        by_cases hc : p * p ≤ m ∧ m ≤ limit ∧ m % p = 0
        · simp only [hc, if_true]
          constructor
          · intro hfalse
            exact absurd hfalse (by simp)
          · intro h
            exact absurd ⟨hc.1, Nat.dvd_of_mod_eq_zero hc.2.2⟩ (h p (by omega) (by omega))
        · simp only [hc, if_false]
          rw [ih m h2 hml]
          constructor
          · intro h d hd1 hd2
            by_cases hdn : d < 2 + n
            · exact h d hd1 hdn
            · have hdp : d = p := by omega
              subst hdp
              rintro ⟨hc1, hc2⟩
              exact hc ⟨hc1, hml, Nat.mod_eq_zero_of_dvd hc2⟩
          · intro h d hd1 hd2
            exact h d hd1 (by omega)
      · simp only [Bool.not_eq_true] at hsp
        unfold sievePass
        simp only [hsp, Bool.false_eq_true, if_false]
        have hps := ih p (by omega) hplim
        rw [hsp] at hps
        have hdiv : ∃ d, 2 ≤ d ∧ d < 2 + n ∧ d * d ≤ p ∧ d ∣ p := by
          by_contra hno
          push_neg at hno
          have hall : ∀ d, 2 ≤ d → d < 2 + n → ¬(d * d ≤ p ∧ d ∣ p) := by
            rintro d hd1 hd2 ⟨ha, hb⟩
            exact absurd hb (by
              have := hno d hd1 hd2 ha
              exact this)
          have : (false : Bool) = true := hps.mpr hall
          simp at this
        obtain ⟨d0, hd01, hd02, hd03, hd04⟩ := hdiv
        rw [ih m h2 hml]
        constructor
        · intro h d hd1 hd2
          by_cases hdn : d < 2 + n
          · exact h d hd1 hdn
          · have hdp : d = p := by omega
            subst hdp
            rintro ⟨hc1, hc2⟩
            refine h d0 hd01 hd02 ⟨?_, dvd_trans hd04 hc2⟩
            calc d0 * d0 ≤ p := hd03
              _ ≤ p * p := hpsq
              _ ≤ m := hc1
        · intro h d hd1 hd2
          exact h d hd1 (by omega)

theorem sieveCond_iff_prime (limit B m : Nat) (h2 : 2 ≤ m) (hm : m ≤ limit)
    (hB : Nat.sqrt limit ≤ B) :
    (∀ d, 2 ≤ d → d ≤ B → ¬(d * d ≤ m ∧ d ∣ m)) ↔ Nat.Prime m := by
  constructor
  · intro h
    by_contra hnp
    have hmf := Nat.minFac_prime (show m ≠ 1 by omega)
    have hd2 : 2 ≤ m.minFac := hmf.two_le
    have hdsq : m.minFac * m.minFac ≤ m := by
      have := Nat.minFac_sq_le_self (show 0 < m by omega) hnp
      simpa [Nat.pow_two] using this
    have hdB : m.minFac ≤ B := by
      refine le_trans ?_ hB
      exact Nat.le_sqrt.mpr (le_trans hdsq hm)
    exact h m.minFac hd2 hdB ⟨hdsq, Nat.minFac_dvd m⟩
  · rintro hp d hd1 hd2 ⟨hsq, hdvd⟩
    rcases (Nat.Prime.eq_one_or_self_of_dvd hp d hdvd) with rfl | rfl
    · omega
    · have : 2 * d ≤ d * d := Nat.mul_le_mul_right d hd1
      omega

theorem sieveBits_prime_B (limit : Nat) (h2 : 2 ≤ limit) (m : Nat)
    (hm2 : 2 ≤ m) (hml : m ≤ limit) :
    (sieveBits limit (limit - 1) m = true ↔ Nat.Prime m) := by
  rw [sieveBits_iff limit (limit - 1) m hm2 hml]
  rw [← sieveCond_iff_prime limit limit m hm2 hml (Nat.sqrt_le_self limit)]
  constructor
  · intro h d hd1 hd2; exact h d hd1 (by omega)
  · intro h d hd1 hd2; exact h d hd1 (by omega)

theorem sieveBits_prime_A (limit : Nat) (h2 : 2 ≤ limit) (m : Nat)
    (hm2 : 2 ≤ m) (hml : m ≤ limit) :
    (sieveBits limit (Nat.sqrt limit - 1) m = true ↔ Nat.Prime m) := by
  have hs1 : 1 ≤ Nat.sqrt limit := by
    have : (1 : Nat) ≤ limit := by omega
    calc 1 = Nat.sqrt 1 := rfl
      _ ≤ Nat.sqrt limit := Nat.sqrt_le_sqrt this
  rw [sieveBits_iff limit (Nat.sqrt limit - 1) m hm2 hml]
  rw [← sieveCond_iff_prime limit (Nat.sqrt limit) m hm2 hml (le_refl _)]
  constructor
  · intro h d hd1 hd2; exact h d hd1 (by omega)
  · intro h d hd1 hd2; exact h d hd1 (by omega)

theorem sieveBits_A_eq_B (limit : Nat) (h2 : 2 ≤ limit) (m : Nat) :
    sieveBits limit (Nat.sqrt limit - 1) m = sieveBits limit (limit - 1) m := by
  by_cases hm2 : m < 2
  · rw [sieveBits_lt_two limit _ m hm2, sieveBits_lt_two limit _ m hm2]
  · push_neg at hm2
    by_cases hml : m ≤ limit
    · have ha := sieveBits_prime_A limit h2 m hm2 hml
      have hb := sieveBits_prime_B limit h2 m hm2 hml
      cases hA : sieveBits limit (Nat.sqrt limit - 1) m
      · cases hB : sieveBits limit (limit - 1) m
        · rfl
        · exact absurd (ha.mpr (hb.mp hB)) (by simp [hA])
      · cases hB : sieveBits limit (limit - 1) m
        · exact absurd (hb.mpr (ha.mp hA)) (by simp [hB])
        · rfl
    · push_neg at hml
      rw [sieveBits_gt limit _ m hml, sieveBits_gt limit _ m hml]

theorem sieve_for_primes_eq (limit : Nat) (h2 : 2 ≤ limit) :
    sieve_for_primes limit = sieve_up_to_r limit := by
  unfold sieve_for_primes sieve_up_to_r
  rw [if_neg (by omega)]
  have hfg : (List.range' 2 (limit - 1)).filter
      (fun m => sieveBits limit (Nat.sqrt limit - 1) m) =
      (List.range' 2 (limit - 1)).filter (fun m => sieveBits limit (limit - 1) m) := by
    apply List.filter_congr
    intro a _
    rw [sieveBits_A_eq_B limit h2 a]
  rw [hfg]
  have hrange : List.range (limit + 1) = 0 :: 1 :: List.range' 2 (limit - 1) := by
    rw [List.range_eq_range']
    have hlim : limit + 1 = (limit - 1) + 2 := by omega
    rw [hlim]
    rw [List.range'_succ, List.range'_succ]
  rw [hrange]
  simp only [List.filter_cons]
  rw [sieveBits_lt_two limit _ 0 (by omega), sieveBits_lt_two limit _ 1 (by omega)]
  simp

/-- C7: for every limit at least 2, both sieves return the same list, the
list is strictly increasing, every element is prime, no prime up to the
limit is omitted, and at every position every smaller prime already occurs
among the earlier elements (no prime is skipped at a boundary). -/
theorem claim_C7_sieve_correct (limit : Nat) (h2 : 2 ≤ limit) :
    sieve_for_primes limit = sieve_up_to_r limit ∧
    List.Sorted (· < ·) (sieve_up_to_r limit) ∧
    (∀ x ∈ sieve_up_to_r limit, Nat.Prime x) ∧
    (∀ q, q ≤ limit → Nat.Prime q → q ∈ sieve_up_to_r limit) ∧
    (∀ n, n < (sieve_up_to_r limit).length →
      ∀ q, q < (sieve_up_to_r limit).getD n 0 → Nat.Prime q →
        q ∈ (sieve_up_to_r limit).take n) := by
  have hunf : sieve_up_to_r limit =
      (List.range (limit + 1)).filter (fun m => sieveBits limit (limit - 1) m) := by
    unfold sieve_up_to_r
    rw [if_neg (by omega)]
  have hmem : ∀ x, x ∈ sieve_up_to_r limit ↔ (x ≤ limit ∧ Nat.Prime x) := by
    intro x
    rw [hunf, List.mem_filter, List.mem_range]
    constructor
    · rintro ⟨hr, hb⟩
      have hxl : x ≤ limit := by omega
      have hx2 : 2 ≤ x := by
        by_contra hlt
        push_neg at hlt
        rw [sieveBits_lt_two limit _ x hlt] at hb
        exact absurd hb (by simp)
      exact ⟨hxl, (sieveBits_prime_B limit h2 x hx2 hxl).mp hb⟩
    · rintro ⟨hxl, hp⟩
      exact ⟨by omega, (sieveBits_prime_B limit h2 x hp.two_le hxl).mpr hp⟩
  have hsorted : List.Sorted (· < ·) (sieve_up_to_r limit) := by
    rw [hunf]
    exact (List.sorted_lt_range (limit + 1)).filter _
  refine ⟨sieve_for_primes_eq limit h2, hsorted, ?_, ?_, ?_⟩
  · intro x hx
    exact ((hmem x).mp hx).2
  · intro q hql hq
    exact (hmem q).mpr ⟨hql, hq⟩
  · intro n hn q hq hqp
    set L := sieve_up_to_r limit with hL
    have hgetD : L.getD n 0 = L.get ⟨n, hn⟩ := by
      rw [List.getD_eq_getElem?_getD, List.getElem?_eq_getElem hn]
      rfl
    rw [hgetD] at hq
    have hmemn : L.get ⟨n, hn⟩ ∈ L := L.get_mem n hn
    have hnl : L.get ⟨n, hn⟩ ≤ limit := ((hmem _).mp hmemn).1
    have hqL : q ∈ L := (hmem q).mpr ⟨by omega, hqp⟩
    obtain ⟨⟨j, hj⟩, hjq⟩ := List.mem_iff_get.mp hqL
    have hpw := (List.pairwise_iff_get).mp hsorted
    have hjn : j < n := by
      by_contra hge
      push_neg at hge
      rcases Nat.eq_or_lt_of_le hge with rfl | hlt
      · rw [hjq] at hq
        omega
      · have := hpw ⟨n, hn⟩ ⟨j, hj⟩ hlt
        rw [hjq] at this
        omega
    have hjtake : j < (L.take n).length := by
      rw [List.length_take]
      omega
    have hje : (L.take n).get ⟨j, hjtake⟩ = q := by
      rw [List.get_eq_getElem, List.getElem_take]
      simpa using hjq
    rw [← hje]
    exact (L.take n).get_mem j hjtake

/-- Witness for C7 at limit 10: both sieves return [2, 3, 5, 7], and all
the stated properties hold for that output. -/
theorem claim_C7_witness :
    sieve_for_primes 10 = sieve_up_to_r 10 ∧
    List.Sorted (· < ·) (sieve_up_to_r 10) ∧
    (∀ x ∈ sieve_up_to_r 10, Nat.Prime x) ∧
    (∀ q, q ≤ 10 → Nat.Prime q → q ∈ sieve_up_to_r 10) ∧
    (∀ n, n < (sieve_up_to_r 10).length →
      ∀ q, q < (sieve_up_to_r 10).getD n 0 → Nat.Prime q →
        q ∈ (sieve_up_to_r 10).take n) :=
  claim_C7_sieve_correct 10 (by omega)

/-- C1: when the nearest-prime search of test_correction_law terminates by
finding a prime within its safety bound, the returned `k_min` is the
smallest positive distance at which either side of the anchor sum is in
the prime set: the found distance has a prime on one side, and no smaller
positive distance has a prime on either side. -/
theorem claim_C1_kmin_minimal (P : Nat → Bool) (S rem k : Nat) (qs : List Nat)
    (h : anchorSearch P S 1 rem = some (k, qs)) :
    1 ≤ k ∧ (P (S - k) = true ∨ P (S + k) = true) ∧
      ∀ d, 1 ≤ d → d < k → ¬(P (S - d) = true ∨ P (S + d) = true) := by
  obtain ⟨h1, h2, _, h4⟩ := anchorSearch_spec P S rem 1 k qs h
  refine ⟨h1, h2, ?_⟩
  intro d hd1 hd2 hcon
  obtain ⟨hl, hu⟩ := h4 d hd1 hd2
  rcases hcon with hc | hc
  · rw [hl] at hc; exact Bool.false_ne_true hc
  · rw [hu] at hc; exact Bool.false_ne_true hc

/-- Witness for C1 at a concrete input: searching around the anchor sum 24
over the membership set of 2, 3, 5, 7, 11, 13, 17, 19 finds k_min = 5
(24 - 5 = 19 is in the set) and no smaller positive distance works. -/
theorem claim_C1_witness :
    1 ≤ 5 ∧ (((fun x => [2,3,5,7,11,13,17,19].contains x) (24 - 5) = true) ∨
      ((fun x => [2,3,5,7,11,13,17,19].contains x) (24 + 5) = true)) ∧
      ∀ d, 1 ≤ d → d < 5 → ¬(((fun x => [2,3,5,7,11,13,17,19].contains x) (24 - d) = true) ∨
        ((fun x => [2,3,5,7,11,13,17,19].contains x) (24 + d) = true)) :=
  claim_C1_kmin_minimal (fun x => [2,3,5,7,11,13,17,19].contains x) 24 100 5 [19]
    (by decide)

theorem getD_eq_get (p : List Nat) (j : Nat) (h : j < p.length) : p.getD j 0 = p[j] := by
  rw [List.getD_eq_getElem?_getD, List.getElem?_eq_getElem h]
  rfl

theorem mem_range'_iff (s n m : Nat) : m ∈ List.range' s n ↔ s ≤ m ∧ m < s + n := by
  rw [List.mem_range']
  constructor
  · rintro ⟨j, hj, rfl⟩
    omega
  · rintro ⟨h1, h2⟩
    exact ⟨m - s, by omega, by omega⟩

theorem correctionForQ_mem (p : List Nat) (P : Nat → Bool) (i q : Nat) :
    ∀ rs r side nk, correctionForQ p P i q rs = some (some (r, side, nk)) → r ∈ rs := by
  intro rs
  induction rs with
  | nil =>
    intro r side nk h
    rw [correctionForQ] at h
    simp at h
  | cons radius rest ih =>
    intro r side nk h
    rw [correctionForQ] at h
    rcases hpa : p[i - radius]? with _ | a
    · simp only [hpa] at h
      exact Option.noConfusion h
    · rcases hpb : p[i - radius + 1]? with _ | b
      · simp only [hpa, hpb] at h
        exact Option.noConfusion h
      · simp only [hpa, hpb] at h
        by_cases hc1 : Nat.dist (a + b) q = 1 ∨ P (Nat.dist (a + b) q) = true
        · simp only [if_pos hc1] at h
          simp only [Option.some.injEq, Prod.mk.injEq] at h
          obtain ⟨rfl, -, -⟩ := h
          exact List.mem_cons_self _ _
        · simp only [if_neg hc1] at h
          rcases hpc : p[i + radius]? with _ | c
          · simp only [hpc] at h
            exact Option.noConfusion h
          · rcases hpd : p[i + radius + 1]? with _ | d
            · simp only [hpc, hpd] at h
              exact Option.noConfusion h
            · simp only [hpc, hpd] at h
              by_cases hc2 : Nat.dist (c + d) q = 1 ∨ P (Nat.dist (c + d) q) = true
              · simp only [if_pos hc2] at h
                simp only [Option.some.injEq, Prod.mk.injEq] at h
                obtain ⟨rfl, -, -⟩ := h
                exact List.mem_cons_self _ _
              · simp only [if_neg hc2] at h
                exact List.mem_cons_of_mem _ (ih r side nk h)

theorem correctionForQ_isSome (p : List Nat) (P : Nat → Bool) (i q : Nat) :
    ∀ rs, (∀ r ∈ rs, i + r + 1 < p.length) → correctionForQ p P i q rs ≠ none := by
  intro rs
  induction rs with
  | nil =>
    intro _ h
    rw [correctionForQ] at h
    simp at h
  | cons radius rest ih =>
    intro hb h
    have hrad := hb radius (List.mem_cons_self _ _)
    have ha : i - radius < p.length := by omega
    have hb' : i - radius + 1 < p.length := by omega
    have hc : i + radius < p.length := by omega
    have hd : i + radius + 1 < p.length := hrad
    rw [correctionForQ] at h
    rw [List.getElem?_eq_getElem ha, List.getElem?_eq_getElem hb'] at h
    simp only at h
    by_cases hc1 : Nat.dist (p[i - radius] + p[i - radius + 1]) q = 1 ∨
        P (Nat.dist (p[i - radius] + p[i - radius + 1]) q) = true
    · simp only [if_pos hc1] at h
      exact Option.noConfusion h
    · simp only [if_neg hc1] at h
      rw [List.getElem?_eq_getElem hc, List.getElem?_eq_getElem hd] at h
      simp only at h
      by_cases hc2 : Nat.dist (p[i + radius] + p[i + radius + 1]) q = 1 ∨
          P (Nat.dist (p[i + radius] + p[i + radius + 1]) q) = true
      · simp only [if_pos hc2] at h
        exact Option.noConfusion h
      · simp only [if_neg hc2] at h
        exact ih (fun r hr => hb r (List.mem_cons_of_mem _ hr)) h

theorem correctionForEvent_isSome (p : List Nat) (P : Nat → Bool) (i maxR : Nat)
    (hb : ∀ r ∈ List.range' 1 maxR, i + r + 1 < p.length) :
    ∀ qs, correctionForEvent p P i maxR qs ≠ none := by
  intro qs
  induction qs with
  | nil =>
    intro h
    rw [correctionForEvent] at h
    simp at h
  | cons q rest ih =>
    intro h
    rw [correctionForEvent] at h
    rcases hq : correctionForQ p P i q (List.range' 1 maxR) with _ | res
    · exact correctionForQ_isSome p P i q _ hb hq
    · rcases res with _ | out
      · simp only [hq] at h
        exact ih h
      · simp only [hq] at h
        exact Option.noConfusion h

theorem scanStep_not_oob (p : List Nat) (P : Nat → Bool) (limit maxR i : Nat) (st : ScanState)
    (hlen : i + maxR + 1 < p.length) :
    scanStep p P limit maxR i st ≠ .oob := by
  have hi : i < p.length := by omega
  have hi1 : i + 1 < p.length := by omega
  rw [scanStep]
  rw [List.getElem?_eq_getElem hi, List.getElem?_eq_getElem hi1]
  simp only
  by_cases hhalt : limit < p[i] + p[i + 1]
  · simp only [if_pos hhalt]
    intro h
    exact absurd h (by simp)
  · simp only [if_neg hhalt]
    rcases hsearch : anchorSearch P (p[i] + p[i + 1]) 1 (limit - (p[i] + p[i + 1])) with _ | kqs
    · simp only
      intro h
      exact absurd h (by simp)
    · obtain ⟨k, qs⟩ := kqs
      simp only
      by_cases hcomp : 1 < k ∧ P k = false
      · simp only [if_pos hcomp]
        by_cases heven : k % 2 = 0
        · simp only [if_pos heven]
          intro h
          exact absurd h (by simp)
        · simp only [if_neg heven]
          have hev := correctionForEvent_isSome p P i maxR
            (fun r hr => by
              have := (mem_range'_iff 1 maxR r).mp hr
              omega) qs
          rcases hevres : correctionForEvent p P i maxR qs with _ | res
          · exact absurd hevres hev
          · rcases res with _ | out
            · simp only [hevres]
              intro h
              exact absurd h (by simp)
            · obtain ⟨q, r, side, nk⟩ := out
              simp only [hevres]
              intro h
              exact absurd h (by simp)
      · simp only [if_neg hcomp]
        intro h
        exact absurd h (by simp)

theorem scanLoop_isSome (p : List Nat) (P : Nat → Bool) (limit maxR : Nat) :
    ∀ idxs st, (∀ i ∈ idxs, i + maxR + 1 < p.length) →
      (scanLoop p P limit maxR idxs st).isSome = true := by
  intro idxs
  induction idxs with
  | nil => intro st _; rfl
  | cons i rest ih =>
    intro st hb
    rw [scanLoop]
    rcases hstep : scanStep p P limit maxR i st with st' | st' | _
    · exact ih st' (fun j hj => hb j (List.mem_cons_of_mem _ hj))
    · rfl
    · exact absurd hstep (scanStep_not_oob p P limit maxR i st (hb i (List.mem_cons_self _ _)))

theorem correctionForQ_range_spec (p : List Nat) (P : Nat → Bool) (i q : Nat) :
    ∀ n a, (∀ r, a ≤ r → r < a + n → i + r + 1 < p.length) →
      ((∀ r side nk, correctionForQ p P i q (List.range' a n) = some (some (r, side, nk)) →
        a ≤ r ∧ r < a + n ∧
        (∀ s, a ≤ s → s < r → ¬prevClean p P i q s ∧ ¬nextClean p P i q s) ∧
        (side = false → prevClean p P i q r ∧ nk = prevNeighborK p i q r) ∧
        (side = true → ¬prevClean p P i q r ∧ nextClean p P i q r ∧
          nk = nextNeighborK p i q r)) ∧
      (correctionForQ p P i q (List.range' a n) = some none ↔
        ∀ r, a ≤ r → r < a + n → ¬prevClean p P i q r ∧ ¬nextClean p P i q r)) := by
  intro n
  induction n with
  | zero =>
    intro a _
    constructor
    · intro r side nk h
      rw [List.range'_zero, correctionForQ] at h
      simp at h
    · constructor
      · intro _ r hr1 hr2
        omega
      · intro _
        rw [List.range'_zero, correctionForQ]
  | succ n ih =>
    intro a hb
    have hacc : i + a + 1 < p.length := hb a (le_refl _) (by omega)
    have hia : i - a < p.length := by omega
    have hia1 : i - a + 1 < p.length := by omega
    have hpa : i + a < p.length := by omega
    have hrange : List.range' a (n + 1) = a :: List.range' (a + 1) n := by
      simpa using List.range'_succ a n 1
    have hkprev : Nat.dist (p[i - a] + p[i - a + 1]) q = prevNeighborK p i q a := by
      unfold prevNeighborK
      rw [getD_eq_get p _ hia, getD_eq_get p _ hia1]
    have hknext : Nat.dist (p[i + a] + p[i + a + 1]) q = nextNeighborK p i q a := by
      unfold nextNeighborK
      rw [getD_eq_get p _ hpa, getD_eq_get p _ hacc]
    rw [hrange]
    by_cases hc1 : prevClean p P i q a
    · have heq : correctionForQ p P i q (a :: List.range' (a + 1) n) =
          some (some (a, false, prevNeighborK p i q a)) := by
        rw [correctionForQ]
        rw [List.getElem?_eq_getElem hia, List.getElem?_eq_getElem hia1]
        simp only
        have hcond : Nat.dist (p[i - a] + p[i - a + 1]) q = 1 ∨
            P (Nat.dist (p[i - a] + p[i - a + 1]) q) = true := by
          rw [hkprev]
          exact hc1
        rw [if_pos hcond, hkprev]
      constructor
      · intro r side nk h
        rw [heq] at h
        simp only [Option.some.injEq, Prod.mk.injEq] at h
        obtain ⟨rfl, hside, rfl⟩ := h
        refine ⟨le_refl _, by omega, ?_, ?_, ?_⟩
        · intro s hs1 hs2
          omega
        · intro _
          exact ⟨hc1, rfl⟩
        · intro hst
          rw [← hside] at hst
          exact absurd hst (by simp)
      · rw [heq]
        constructor
        · intro h
          exact absurd h (by simp)
        · intro h
          exact absurd hc1 (h a (le_refl _) (by omega)).1
    · by_cases hc2 : nextClean p P i q a
      · have heq : correctionForQ p P i q (a :: List.range' (a + 1) n) =
            some (some (a, true, nextNeighborK p i q a)) := by
          rw [correctionForQ]
          rw [List.getElem?_eq_getElem hia, List.getElem?_eq_getElem hia1]
          simp only
          have hcond : ¬(Nat.dist (p[i - a] + p[i - a + 1]) q = 1 ∨
              P (Nat.dist (p[i - a] + p[i - a + 1]) q) = true) := by
            rw [hkprev]
            exact hc1
          rw [if_neg hcond]
          rw [List.getElem?_eq_getElem hpa, List.getElem?_eq_getElem hacc]
          simp only
          have hcond2 : Nat.dist (p[i + a] + p[i + a + 1]) q = 1 ∨
              P (Nat.dist (p[i + a] + p[i + a + 1]) q) = true := by
            rw [hknext]
            exact hc2
          rw [if_pos hcond2, hknext]
        constructor
        · intro r side nk h
          rw [heq] at h
          simp only [Option.some.injEq, Prod.mk.injEq] at h
          obtain ⟨rfl, hside, rfl⟩ := h
          refine ⟨le_refl _, by omega, ?_, ?_, ?_⟩
          · intro s hs1 hs2
            omega
          · intro hst
            rw [← hside] at hst
            exact absurd hst (by simp)
          · intro _
            exact ⟨hc1, hc2, rfl⟩
        · rw [heq]
          constructor
          · intro h
            exact absurd h (by simp)
          · intro h
            exact absurd hc2 (h a (le_refl _) (by omega)).2
      · have heq : correctionForQ p P i q (a :: List.range' (a + 1) n) =
            correctionForQ p P i q (List.range' (a + 1) n) := by
          rw [correctionForQ]
          rw [List.getElem?_eq_getElem hia, List.getElem?_eq_getElem hia1]
          simp only
          have hcond : ¬(Nat.dist (p[i - a] + p[i - a + 1]) q = 1 ∨
              P (Nat.dist (p[i - a] + p[i - a + 1]) q) = true) := by
            rw [hkprev]
            exact hc1
          rw [if_neg hcond]
          rw [List.getElem?_eq_getElem hpa, List.getElem?_eq_getElem hacc]
          simp only
          have hcond2 : ¬(Nat.dist (p[i + a] + p[i + a + 1]) q = 1 ∨
              P (Nat.dist (p[i + a] + p[i + a + 1]) q) = true) := by
            rw [hknext]
            exact hc2
          rw [if_neg hcond2]
        obtain ⟨ih1, ih2⟩ := ih (a + 1) (fun r hr1 hr2 => hb r (by omega) (by omega))
        constructor
        · intro r side nk h
          rw [heq] at h
          obtain ⟨hr1, hr2, hmin, hsp, hsn⟩ := ih1 r side nk h
          refine ⟨by omega, by omega, ?_, hsp, hsn⟩
          intro s hs1 hs2
          rcases Nat.eq_or_lt_of_le hs1 with rfl | hlt
          · exact ⟨hc1, hc2⟩
          · exact hmin s hlt hs2
        · rw [heq, ih2]
          constructor
          · intro h r hr1 hr2
            rcases Nat.eq_or_lt_of_le hr1 with rfl | hlt
            · exact ⟨hc1, hc2⟩
            · exact h r hlt (by omega)
          · intro h r hr1 hr2
            exact h r (by omega) (by omega)

theorem correctionForEvent_spec (p : List Nat) (P : Nat → Bool) (i maxR : Nat)
    (hb : ∀ r, 1 ≤ r → r < 1 + maxR → i + r + 1 < p.length) :
    ∀ qs,
      ((∃ out, correctionForEvent p P i maxR qs = some (some out)) ↔
        ∃ q ∈ qs, ∃ r, 1 ≤ r ∧ r ≤ maxR ∧ (prevClean p P i q r ∨ nextClean p P i q r)) ∧
      (∀ q r side nk, correctionForEvent p P i maxR qs = some (some (q, r, side, nk)) →
        ∃ pre post, qs = pre ++ q :: post ∧
          (∀ q' ∈ pre, ∀ r', 1 ≤ r' → r' ≤ maxR →
            ¬prevClean p P i q' r' ∧ ¬nextClean p P i q' r') ∧
          1 ≤ r ∧ r ≤ maxR ∧
          (∀ r', 1 ≤ r' → r' < r → ¬prevClean p P i q r' ∧ ¬nextClean p P i q r')) := by
  intro qs
  induction qs with
  | nil =>
    constructor
    · constructor
      · rintro ⟨out, h⟩
        rw [correctionForEvent] at h
        simp at h
      · rintro ⟨q, hq, -⟩
        simp at hq
    · intro q r side nk h
      rw [correctionForEvent] at h
      simp at h
  | cons q0 rest ih =>
    rcases hq0 : correctionForQ p P i q0 (List.range' 1 maxR) with _ | res
    · exact absurd hq0 (correctionForQ_isSome p P i q0 _ (fun r hr => by
        have := (mem_range'_iff 1 maxR r).mp hr
        exact hb r this.1 (by omega)))
    · rcases res with _ | out
      · have hfail := ((correctionForQ_range_spec p P i q0 maxR 1
          (fun r h1 h2 => hb r h1 h2)).2).mp hq0
        obtain ⟨ih1, ih2⟩ := ih
        constructor
        · constructor
          · rintro ⟨out, h⟩
            rw [correctionForEvent, hq0] at h
            obtain ⟨q, hqmem, r, hr1, hr2, hcl⟩ := ih1.mp ⟨out, h⟩
            exact ⟨q, List.mem_cons_of_mem _ hqmem, r, hr1, hr2, hcl⟩
          · rintro ⟨q, hqmem, r, hr1, hr2, hcl⟩
            rcases List.mem_cons.mp hqmem with rfl | hqrest
            · have := hfail r hr1 (by omega)
              rcases hcl with hcl | hcl
              · exact absurd hcl this.1
              · exact absurd hcl this.2
            · obtain ⟨out, h⟩ := ih1.mpr ⟨q, hqrest, r, hr1, hr2, hcl⟩
              exact ⟨out, by rw [correctionForEvent, hq0]; exact h⟩
        · intro q r side nk h
          rw [correctionForEvent, hq0] at h
          obtain ⟨pre, post, hsplit, hpre, hr1, hr2, hmin⟩ := ih2 q r side nk h
          refine ⟨q0 :: pre, post, by rw [hsplit]; rfl, ?_, hr1, hr2, hmin⟩
          intro q' hq' r' h1 h2
          rcases List.mem_cons.mp hq' with rfl | hq'pre
          · exact hfail r' h1 (by omega)
          · exact hpre q' hq'pre r' h1 h2
      · obtain ⟨r0, side0, nk0⟩ := out
        obtain ⟨hr01, hr02, hmin, hsp, hsn⟩ :=
          ((correctionForQ_range_spec p P i q0 maxR 1
            (fun r h1 h2 => hb r h1 h2)).1) r0 side0 nk0 hq0
        have hres : correctionForEvent p P i maxR (q0 :: rest) =
            some (some (q0, r0, side0, nk0)) := by
          rw [correctionForEvent, hq0]
        constructor
        · constructor
          · rintro ⟨out, h⟩
            refine ⟨q0, List.mem_cons_self _ _, r0, hr01, by omega, ?_⟩
            cases side0 with
            | false => exact Or.inl (hsp rfl).1
            | true => exact Or.inr (hsn rfl).2.1
          · intro _
            exact ⟨(q0, r0, side0, nk0), hres⟩
        · intro q r side nk h
          rw [hres] at h
          simp only [Option.some.injEq, Prod.mk.injEq] at h
          obtain ⟨rfl, rfl, rfl, rfl⟩ := h
          refine ⟨[], rest, rfl, ?_, hr01, by omega, ?_⟩
          · intro q' hq'
            simp at hq'
          · intro r' h1 h2
            exact hmin r' h1 h2

/-- C4: when both sides of the anchor are prime at the same minimal
distance, both primes are recorded as candidate targets, in the order
lower then upper; the event resolves as corrected exactly when some
candidate is corrected at some radius up to the maximum; and a returned
correction names the first candidate (in list order) that succeeds at
all, together with its first successful radius, every earlier candidate
failing every radius and the chosen candidate failing every smaller
radius.  The hypothesis maxR ≤ i pins the index domain on which the
embedding's truncated subtraction agrees with the source's indexing; the
scanned indices always satisfy it since start_index = maxR + 1. -/
theorem claim_C4_both_candidates (p : List Nat) (P : Nat → Bool) (i maxR : Nat)
    (S rem k : Nat) (qs : List Nat)
    (_hir : maxR ≤ i)
    (hsearch : anchorSearch P S 1 rem = some (k, qs))
    (hboth : P (S - k) = true ∧ P (S + k) = true)
    (hb : ∀ r, 1 ≤ r → r < 1 + maxR → i + r + 1 < p.length) :
    qs = [S - k, S + k] ∧
    ((∃ out, correctionForEvent p P i maxR qs = some (some out)) ↔
      ∃ q ∈ qs, ∃ r, 1 ≤ r ∧ r ≤ maxR ∧ (prevClean p P i q r ∨ nextClean p P i q r)) ∧
    (∀ q r side nk, correctionForEvent p P i maxR qs = some (some (q, r, side, nk)) →
      ∃ pre post, qs = pre ++ q :: post ∧
        (∀ q' ∈ pre, ∀ r', 1 ≤ r' → r' ≤ maxR →
          ¬prevClean p P i q' r' ∧ ¬nextClean p P i q' r') ∧
        1 ≤ r ∧ r ≤ maxR ∧
        (∀ r', 1 ≤ r' → r' < r → ¬prevClean p P i q r' ∧ ¬nextClean p P i q r')) := by
  obtain ⟨-, -, hqs, -⟩ := anchorSearch_spec P S rem 1 k qs hsearch
  obtain ⟨h1, h2⟩ := correctionForEvent_spec p P i maxR hb qs
  refine ⟨?_, h1, h2⟩
  rw [hqs, if_pos hboth.1, if_pos hboth.2]
  rfl

/-- Witness for C4: around the anchor 16 = 11 + 5 at index 1 of
[19, 11, 5, 13], both 16 - 3 = 13 and 16 + 3 = 19 are in the set at the
minimal distance 3, both are recorded as candidates in lower-upper
order, and the resolution equivalence and ordering facts hold. -/
theorem claim_C4_witness :
    [13, 19] = ([16 - 3, 16 + 3] : List Nat) ∧
    ((∃ out, correctionForEvent [19, 11, 5, 13]
        (fun x => decide (x ∈ [19, 11, 5, 13])) 1 1 [13, 19] = some (some out)) ↔
      ∃ q ∈ [13, 19], ∃ r, 1 ≤ r ∧ r ≤ 1 ∧
        (prevClean [19, 11, 5, 13] (fun x => decide (x ∈ [19, 11, 5, 13])) 1 q r ∨
         nextClean [19, 11, 5, 13] (fun x => decide (x ∈ [19, 11, 5, 13])) 1 q r)) ∧
    (∀ q r side nk, correctionForEvent [19, 11, 5, 13]
        (fun x => decide (x ∈ [19, 11, 5, 13])) 1 1 [13, 19] = some (some (q, r, side, nk)) →
      ∃ pre post, ([13, 19] : List Nat) = pre ++ q :: post ∧
        (∀ q' ∈ pre, ∀ r', 1 ≤ r' → r' ≤ 1 →
          ¬prevClean [19, 11, 5, 13] (fun x => decide (x ∈ [19, 11, 5, 13])) 1 q' r' ∧
          ¬nextClean [19, 11, 5, 13] (fun x => decide (x ∈ [19, 11, 5, 13])) 1 q' r') ∧
        1 ≤ r ∧ r ≤ 1 ∧
        (∀ r', 1 ≤ r' → r' < r →
          ¬prevClean [19, 11, 5, 13] (fun x => decide (x ∈ [19, 11, 5, 13])) 1 q r' ∧
          ¬nextClean [19, 11, 5, 13] (fun x => decide (x ∈ [19, 11, 5, 13])) 1 q r')) :=
  claim_C4_both_candidates [19, 11, 5, 13] (fun x => decide (x ∈ [19, 11, 5, 13])) 1 1
    16 50 3 [13, 19] (by omega) (by decide) (by decide)
    (by
      intro r h1 h2
      simp only [List.length_cons, List.length_nil]
      omega)

theorem sum_map_update_add_one (h : Nat → Nat) :
    ∀ (l : List Nat) (r : Nat), r ∈ l → l.Nodup →
      (l.map (fun x => if x = r then h x + 1 else h x)).sum = (l.map h).sum + 1 := by
  intro l
  induction l with
  | nil =>
    intro r hr _
    simp at hr
  | cons a t ih =>
    intro r hr hnd
    rcases List.mem_cons.mp hr with rfl | hrt
    · have hnt : r ∉ t := (List.nodup_cons.mp hnd).1
      simp only [List.map_cons, List.sum_cons]
      have hmap : t.map (fun x => if x = r then h x + 1 else h x) = t.map h := by
        apply List.map_congr_left
        intro x hx
        have hxr : x ≠ r := fun hxr => hnt (hxr ▸ hx)
        simp [hxr]
      rw [if_pos trivial, hmap]
      omega
    · have hna : a ≠ r := by
        rintro rfl
        exact (List.nodup_cons.mp hnd).1 hrt
      simp only [List.map_cons, List.sum_cons, if_neg hna]
      rw [ih r hrt (List.nodup_cons.mp hnd).2]
      omega

theorem histSum_update (h : Nat → Nat) (maxR r : Nat) (hr : r ∈ List.range' 1 maxR) :
    histSum (fun x => if x = r then h x + 1 else h x) maxR = histSum h maxR + 1 := by
  unfold histSum
  exact sum_map_update_add_one h _ r hr (List.nodup_range' 1 maxR)

theorem correctionForEvent_radius_mem (p : List Nat) (P : Nat → Bool) (i maxR : Nat) :
    ∀ qs q r side nk, correctionForEvent p P i maxR qs = some (some (q, r, side, nk)) →
      r ∈ List.range' 1 maxR := by
  intro qs
  induction qs with
  | nil =>
    intro q r side nk h
    rw [correctionForEvent] at h
    simp at h
  | cons q0 rest ih =>
    intro q r side nk h
    rw [correctionForEvent] at h
    rcases hq0 : correctionForQ p P i q0 (List.range' 1 maxR) with _ | res
    · simp only [hq0] at h
      exact Option.noConfusion h
    · rcases res with _ | out
      · simp only [hq0] at h
        exact ih q r side nk h
      · obtain ⟨r0, s0, n0⟩ := out
        simp only [hq0] at h
        simp only [Option.some.injEq, Prod.mk.injEq] at h
        obtain ⟨-, rfl, -, -⟩ := h
        exact correctionForQ_mem p P i q0 _ r0 s0 n0 hq0

theorem scanStep_inv (p : List Nat) (P : Nat → Bool) (limit maxR i : Nat)
    (st st' : ScanState)
    (hodd : ∀ j, j < p.length → 1 ≤ j → p.getD j 0 % 2 = 1 ∧ 3 ≤ p.getD j 0)
    (hP2 : ∀ x, P x = true → x = 2 ∨ x % 2 = 1)
    (hP3 : P 3 = true)
    (hi : 1 ≤ i)
    (hinv : histSum st.hist maxR = st.corrected.length ∧ st.lawII = [])
    (hstep : scanStep p P limit maxR i st = .next st' ∨
      scanStep p P limit maxR i st = .halt st') :
    histSum st'.hist maxR = st'.corrected.length ∧ st'.lawII = [] := by
  rw [scanStep] at hstep
  rcases hpi : p[i]? with _ | pn
  · simp only [hpi] at hstep
    rcases hstep with h | h <;> exact StepOut.noConfusion h
  · rcases hpi1 : p[i + 1]? with _ | pn1
    · simp only [hpi, hpi1] at hstep
      rcases hstep with h | h <;> exact StepOut.noConfusion h
    · simp only [hpi, hpi1] at hstep
      by_cases hhalt : limit < pn + pn1
      · simp only [if_pos hhalt] at hstep
        rcases hstep with h | h
        · exact StepOut.noConfusion h
        · cases h
          exact hinv
      · simp only [if_neg hhalt] at hstep
        rcases hsearch : anchorSearch P (pn + pn1) 1 (limit - (pn + pn1)) with _ | kqs
        · simp only [hsearch] at hstep
          rcases hstep with h | h
          · cases h
            exact hinv
          · exact StepOut.noConfusion h
        · obtain ⟨k, qs⟩ := kqs
          simp only [hsearch] at hstep
          by_cases hcomp : 1 < k ∧ P k = false
          · simp only [if_pos hcomp] at hstep
            by_cases heven : k % 2 = 0
            · exfalso
              obtain ⟨hiLen, hpieq⟩ := List.getElem?_eq_some.mp hpi
              obtain ⟨hi1Len, hpi1eq⟩ := List.getElem?_eq_some.mp hpi1
              have hodd1 := hodd i hiLen hi
              have hodd2 := hodd (i + 1) hi1Len (by omega)
              rw [getD_eq_get p i hiLen, hpieq] at hodd1
              rw [getD_eq_get p (i + 1) hi1Len, hpi1eq] at hodd2
              obtain ⟨-, hPmem, -, hmin⟩ :=
                anchorSearch_spec P (pn + pn1) (limit - (pn + pn1)) 1 k qs hsearch
              rcases hPmem with hmem | hmem
              · by_cases hkS : k < pn + pn1
                · have hcase := hP2 _ hmem
                  have h2 : pn + pn1 - k = 2 := by omega
                  have hd := hmin (pn + pn1 - 3) (by omega) (by omega)
                  have h3 : pn + pn1 - (pn + pn1 - 3) = 3 := by omega
                  rw [h3] at hd
                  rw [hd.1] at hP3
                  exact Bool.false_ne_true hP3
                · push_neg at hkS
                  have h0 : pn + pn1 - k = 0 := by omega
                  rw [h0] at hmem
                  rcases hP2 0 hmem with h | h <;> omega
              · rcases hP2 _ hmem with h | h <;> omega
            · simp only [if_neg heven] at hstep
              rcases hev : correctionForEvent p P i maxR qs with _ | res
              · simp only [hev] at hstep
                rcases hstep with h | h <;> exact StepOut.noConfusion h
              · rcases res with _ | out
                · simp only [hev] at hstep
                  rcases hstep with h | h
                  · cases h
                    exact ⟨hinv.1, hinv.2⟩
                  · exact StepOut.noConfusion h
                · obtain ⟨q, r, side, nk⟩ := out
                  simp only [hev] at hstep
                  rcases hstep with h | h
                  · cases h
                    have hrmem := correctionForEvent_radius_mem p P i maxR qs q r side nk hev
                    constructor
                    · dsimp only
                      rw [histSum_update st.hist maxR r hrmem, hinv.1]
                      simp
                    · exact hinv.2
                  · exact StepOut.noConfusion h
          · simp only [if_neg hcomp] at hstep
            rcases hstep with h | h
            · cases h
              exact hinv
            · exact StepOut.noConfusion h

theorem scanLoop_inv (p : List Nat) (P : Nat → Bool) (limit maxR : Nat)
    (hodd : ∀ j, j < p.length → 1 ≤ j → p.getD j 0 % 2 = 1 ∧ 3 ≤ p.getD j 0)
    (hP2 : ∀ x, P x = true → x = 2 ∨ x % 2 = 1)
    (hP3 : P 3 = true) :
    ∀ idxs st st', (∀ i ∈ idxs, 1 ≤ i) →
      histSum st.hist maxR = st.corrected.length ∧ st.lawII = [] →
      scanLoop p P limit maxR idxs st = some st' →
      histSum st'.hist maxR = st'.corrected.length ∧ st'.lawII = [] := by
  intro idxs
  induction idxs with
  | nil =>
    intro st st' _ hinv h
    rw [scanLoop] at h
    cases h
    exact hinv
  | cons i rest ih =>
    intro st st' hall hinv h
    rw [scanLoop] at h
    rcases hstep : scanStep p P limit maxR i st with st1 | st1 | _
    · simp only [hstep] at h
      exact ih st1 st' (fun j hj => hall j (List.mem_cons_of_mem _ hj))
        (scanStep_inv p P limit maxR i st st1 hodd hP2 hP3
          (hall i (List.mem_cons_self _ _)) hinv (Or.inl hstep)) h
    · simp only [hstep] at h
      cases h
      exact scanStep_inv p P limit maxR i st st' hodd hP2 hP3
        (hall i (List.mem_cons_self _ _)) hinv (Or.inr hstep)
    · simp only [hstep] at h
      exact Option.noConfusion h

/-- C2: for every completed scan over a list whose entries past index 0
are odd and at least 3 and whose membership set holds 3 and no even value
other than 2 (all true of the sieve output the script feeds the scan),
the sum of the correction-radius histogram plus the number of uncorrected
failures equals the total number of composite (exception) anchors, which
the report computes as corrected + Law II violations + failures; the Law
II bucket is provably empty under these hypotheses. -/
theorem claim_C2_histogram_sums (p : List Nat) (P : Nat → Bool)
    (limit maxR maxPairs : Nat) (st : ScanState)
    (hodd : ∀ j, j < p.length → 1 ≤ j → p.getD j 0 % 2 = 1 ∧ 3 ≤ p.getD j 0)
    (hP2 : ∀ x, P x = true → x = 2 ∨ x % 2 = 1)
    (hP3 : P 3 = true)
    (hrun : test_correction_law p P limit maxR maxPairs = some st) :
    histSum st.hist maxR + st.failures.length =
      st.corrected.length + st.lawII.length + st.failures.length := by
  have hres := scanLoop_inv p P limit maxR hodd hP2 hP3
    (List.range' (maxR + 1) maxPairs) initState st
    (fun i hi => by
      have := (mem_range'_iff _ _ i).mp hi
      omega)
    (by
      constructor
      · unfold histSum initState
        simp
      · rfl)
    hrun
  rw [hres.2]
  simp only [List.length_nil]
  omega

/-- Witness for C2 at a concrete scan: the first 8 primes with
maxR = 2 and maxPairs = 3 produce a scan whose anchors are all clean, so
every count is 0 and the identity holds. -/
theorem claim_C2_witness :
    histSum (initState).hist 2 + (initState).failures.length =
      (initState).corrected.length + (initState).lawII.length +
        (initState).failures.length :=
  claim_C2_histogram_sums [2, 3, 5, 7, 11, 13, 17, 19]
    (fun x => decide (x ∈ [2, 3, 5, 7, 11, 13, 17, 19])) 1000 2 3 initState
    (by decide)
    (by
      intro x hx
      have hmem : x ∈ [2, 3, 5, 7, 11, 13, 17, 19] := of_decide_eq_true hx
      fin_cases hmem <;> omega)
    (by decide)
    (by rfl)

theorem scanStep_even_lawII (p : List Nat) (P : Nat → Bool) (limit maxR i : Nat)
    (st : ScanState) (pn pn1 k : Nat) (qs : List Nat)
    (h1 : p[i]? = some pn) (h2 : p[i + 1]? = some pn1)
    (h3 : ¬(limit < pn + pn1))
    (h4 : anchorSearch P (pn + pn1) 1 (limit - (pn + pn1)) = some (k, qs))
    (h5 : 1 < k) (h6 : P k = false) (h7 : k % 2 = 0) :
    scanStep p P limit maxR i st =
      .next ⟨st.corrected, st.failures, st.lawII ++ [⟨pn + pn1, k⟩], st.ks, st.hist⟩ := by
  rw [scanStep]
  simp only [h1, h2, if_neg h3, h4]
  rw [if_pos ⟨h5, h6⟩, if_pos h7]

theorem scanStep_ks (p : List Nat) (P : Nat → Bool) (limit maxR i : Nat)
    (st st' : ScanState)
    (hks : ∀ k ∈ st.ks, k % 2 = 1 ∧ 1 < k ∧ P k = false)
    (hstep : scanStep p P limit maxR i st = .next st' ∨
      scanStep p P limit maxR i st = .halt st') :
    ∀ k ∈ st'.ks, k % 2 = 1 ∧ 1 < k ∧ P k = false := by
  rw [scanStep] at hstep
  rcases hpi : p[i]? with _ | pn
  · simp only [hpi] at hstep
    rcases hstep with h | h <;> exact StepOut.noConfusion h
  · rcases hpi1 : p[i + 1]? with _ | pn1
    · simp only [hpi, hpi1] at hstep
      rcases hstep with h | h <;> exact StepOut.noConfusion h
    · simp only [hpi, hpi1] at hstep
      by_cases hhalt : limit < pn + pn1
      · simp only [if_pos hhalt] at hstep
        rcases hstep with h | h
        · exact StepOut.noConfusion h
        · cases h
          exact hks
      · simp only [if_neg hhalt] at hstep
        rcases hsearch : anchorSearch P (pn + pn1) 1 (limit - (pn + pn1)) with _ | kqs
        · simp only [hsearch] at hstep
          rcases hstep with h | h
          · cases h
            exact hks
          · exact StepOut.noConfusion h
        · obtain ⟨k, qs⟩ := kqs
          simp only [hsearch] at hstep
          by_cases hcomp : 1 < k ∧ P k = false
          · simp only [if_pos hcomp] at hstep
            by_cases heven : k % 2 = 0
            · simp only [if_pos heven] at hstep
              rcases hstep with h | h
              · cases h
                exact hks
              · exact StepOut.noConfusion h
            · simp only [if_neg heven] at hstep
              have hnew : ∀ x ∈ st.ks.insert k, x % 2 = 1 ∧ 1 < x ∧ P x = false := by
                intro x hx
                rcases List.mem_insert_iff.mp hx with rfl | hxks
                · exact ⟨by omega, hcomp.1, hcomp.2⟩
                · exact hks x hxks
              rcases hev : correctionForEvent p P i maxR qs with _ | res
              · simp only [hev] at hstep
                rcases hstep with h | h <;> exact StepOut.noConfusion h
              · rcases res with _ | out
                · simp only [hev] at hstep
                  rcases hstep with h | h
                  · cases h
                    exact hnew
                  · exact StepOut.noConfusion h
                · obtain ⟨q, r, side, nk⟩ := out
                  simp only [hev] at hstep
                  rcases hstep with h | h
                  · cases h
                    exact hnew
                  · exact StepOut.noConfusion h
          · simp only [if_neg hcomp] at hstep
            rcases hstep with h | h
            · cases h
              exact hks
            · exact StepOut.noConfusion h

theorem scanLoop_ks (p : List Nat) (P : Nat → Bool) (limit maxR : Nat) :
    ∀ idxs st st', (∀ k ∈ st.ks, k % 2 = 1 ∧ 1 < k ∧ P k = false) →
      scanLoop p P limit maxR idxs st = some st' →
      ∀ k ∈ st'.ks, k % 2 = 1 ∧ 1 < k ∧ P k = false := by
  intro idxs
  induction idxs with
  | nil =>
    intro st st' hks h
    rw [scanLoop] at h
    cases h
    exact hks
  | cons i rest ih =>
    intro st st' hks h
    rw [scanLoop] at h
    rcases hstep : scanStep p P limit maxR i st with st1 | st1 | _
    · simp only [hstep] at h
      exact ih st1 st' (scanStep_ks p P limit maxR i st st1 hks (Or.inl hstep)) h
    · simp only [hstep] at h
      cases h
      exact scanStep_ks p P limit maxR i st st' hks (Or.inr hstep)
    · simp only [hstep] at h
      exact Option.noConfusion h

/-- C10: in the main tester every composite anchor whose k_min is even is
recorded as a Law II violation and then skipped, touching neither the
correction search, nor the radius histogram, nor the failure list, nor the
unique-composite-k set (second conjunct: the step appends only a
violation record); and every value recorded in the unique-composite-k set
is an odd composite, that is odd, greater than 1 and outside the prime
set (first conjunct). -/
theorem claim_C10_even_k_skipped :
    (∀ (p : List Nat) (P : Nat → Bool) (limit maxR maxPairs : Nat) (st : ScanState),
      test_correction_law p P limit maxR maxPairs = some st →
      ∀ k ∈ st.ks, k % 2 = 1 ∧ 1 < k ∧ P k = false) ∧
    (∀ (p : List Nat) (P : Nat → Bool) (limit maxR i : Nat) (st : ScanState)
      (pn pn1 k : Nat) (qs : List Nat),
      p[i]? = some pn → p[i + 1]? = some pn1 → ¬(limit < pn + pn1) →
      anchorSearch P (pn + pn1) 1 (limit - (pn + pn1)) = some (k, qs) →
      1 < k → P k = false → k % 2 = 0 →
      scanStep p P limit maxR i st =
        .next ⟨st.corrected, st.failures, st.lawII ++ [⟨pn + pn1, k⟩], st.ks, st.hist⟩) :=
  ⟨fun p P limit maxR maxPairs st hrun =>
    scanLoop_ks p P limit maxR (List.range' (maxR + 1) maxPairs) initState st
      (by
        intro k hk
        simp [initState] at hk)
      hrun,
   fun p P limit maxR i st pn pn1 k qs h1 h2 h3 h4 h5 h6 h7 =>
    scanStep_even_lawII p P limit maxR i st pn pn1 k qs h1 h2 h3 h4 h5 h6 h7⟩

/-- Witness for C10: on the list [93, 2, 20, 50, 52, 60] with maxPairs =
2, maxR = 1, the anchor 70 at index 2 has even composite k = 10 and the
step only appends a Law II record, and the completed run records exactly
the odd composite 9 in the unique-k set. -/
theorem claim_C10_witness :
    (∀ k ∈ (⟨[], [⟨102, [93], 9⟩], [⟨70, 10⟩], [9], fun _ => 0⟩ : ScanState).ks,
      k % 2 = 1 ∧ 1 < k ∧ (fun x => decide (x ∈ [93, 2, 20, 50, 52, 60])) k = false) ∧
    scanStep [93, 2, 20, 50, 52, 60] (fun x => decide (x ∈ [93, 2, 20, 50, 52, 60]))
        120 1 2 initState =
      .next ⟨initState.corrected, initState.failures, initState.lawII ++ [⟨70, 10⟩],
             initState.ks, initState.hist⟩ :=
  ⟨claim_C10_even_k_skipped.1 [93, 2, 20, 50, 52, 60]
      (fun x => decide (x ∈ [93, 2, 20, 50, 52, 60])) 120 1 2
      ⟨[], [⟨102, [93], 9⟩], [⟨70, 10⟩], [9], fun _ => 0⟩ (by rfl),
   claim_C10_even_k_skipped.2 [93, 2, 20, 50, 52, 60]
      (fun x => decide (x ∈ [93, 2, 20, 50, 52, 60])) 120 1 2 initState 20 50 10 [60]
      (by rfl) (by rfl) (by omega) (by decide) (by omega) (by decide) (by decide)⟩

/-- Counterexample for C5: the list [93, 2, 20, 50, 52] passes the
pre-scan count check for maxPairs = 2, maxR = 1 (it needs at least
2 + 1 + 2 = 5 entries and has exactly 5), yet the scan raises an
IndexError: the last scanned anchor 50 + 52 = 102 has composite nearest
distance 9 (to the prime 93), the radius-1 previous anchor is not clean,
and the radius-1 next-anchor test reads index 5, which is out of range. -/
theorem claim_C5_counterexample :
    primeCountCheck [93, 2, 20, 50, 52] 2 1 = true ∧
    (test_correction_law [93, 2, 20, 50, 52]
        (fun x => decide (x ∈ [93, 2, 20, 50, 52])) 120 1 2).isNone = true := by
  constructor
  · decide
  · decide

/-- C5 (amended): the pre-scan bound maxPairs + maxR + 2 of the source
does not rule out an out-of-range access, but the stronger bound
maxPairs + 2*maxR + 2 does: with it, every index the scan and its
correction search access is in range and the scan completes without an
IndexError. -/
theorem claim_C5_amended_no_oob (p : List Nat) (P : Nat → Bool)
    (limit maxR maxPairs : Nat)
    (hlen : maxPairs + 2 * maxR + 2 ≤ p.length) :
    (test_correction_law p P limit maxR maxPairs).isSome = true := by
  apply scanLoop_isSome
  intro i hi
  have := (mem_range'_iff (maxR + 1) maxPairs i).mp hi
  omega

/-- Witness for the amended C5: a list of 5 primes with maxPairs = 1,
maxR = 1 meets the stronger bound and the scan completes. -/
theorem claim_C5_witness :
    (test_correction_law [2, 3, 5, 7, 11]
        (fun x => decide (x ∈ [2, 3, 5, 7, 11])) 100 1 1).isSome = true :=
  claim_C5_amended_no_oob [2, 3, 5, 7, 11]
    (fun x => decide (x ∈ [2, 3, 5, 7, 11])) 100 1 1 (by decide)

theorem fcrCorrection_range_spec (p : List Nat) (P : Nat → Bool) (i q : Nat) :
    ∀ n a, (∀ r, a ≤ r → r < a + n → 1 ≤ i - r ∧ i + r + 1 < p.length) →
      ((∀ r side, fcrCorrection p P i q (List.range' a n) = some (r, side) →
        a ≤ r ∧ r < a + n ∧
        (∀ s, a ≤ s → s < r → ¬prevClean p P i q s ∧ ¬nextClean p P i q s) ∧
        (side = false → prevClean p P i q r) ∧
        (side = true → ¬prevClean p P i q r ∧ nextClean p P i q r)) ∧
      (fcrCorrection p P i q (List.range' a n) = none ↔
        ∀ r, a ≤ r → r < a + n → ¬prevClean p P i q r ∧ ¬nextClean p P i q r)) := by
  intro n
  induction n with
  | zero =>
    intro a _
    constructor
    · intro r side h
      rw [List.range'_zero, fcrCorrection] at h
      simp at h
    · constructor
      · intro _ r hr1 hr2
        omega
      · intro _
        rw [List.range'_zero, fcrCorrection]
  | succ n ih =>
    intro a hb
    obtain ⟨hg1, hg2⟩ := hb a (le_refl _) (by omega)
    have hrange : List.range' a (n + 1) = a :: List.range' (a + 1) n := by
      simpa using List.range'_succ a n 1
    rw [hrange]
    by_cases hc1 : prevClean p P i q a
    · have hc1x : prevNeighborK p i q a = 1 ∨ P (prevNeighborK p i q a) = true := hc1
      have heq : fcrCorrection p P i q (a :: List.range' (a + 1) n) = some (a, false) := by
        rw [fcrCorrection]
        simp only [if_pos hg1]
        rw [if_pos hc1x]
      constructor
      · intro r side h
        rw [heq] at h
        simp only [Option.some.injEq, Prod.mk.injEq] at h
        obtain ⟨rfl, hside⟩ := h
        refine ⟨le_refl _, by omega, ?_, ?_, ?_⟩
        · intro s hs1 hs2
          omega
        · intro _
          exact hc1
        · intro hst
          rw [← hside] at hst
          exact absurd hst (by simp)
      · rw [heq]
        constructor
        · intro h
          exact absurd h (by simp)
        · intro h
          exact absurd hc1 (h a (le_refl _) (by omega)).1
    · by_cases hc2 : nextClean p P i q a
      · have hc1x : ¬(prevNeighborK p i q a = 1 ∨ P (prevNeighborK p i q a) = true) := hc1
        have hc2x : nextNeighborK p i q a = 1 ∨ P (nextNeighborK p i q a) = true := hc2
        have heq : fcrCorrection p P i q (a :: List.range' (a + 1) n) = some (a, true) := by
          rw [fcrCorrection]
          simp only [if_pos hg1]
          rw [if_neg hc1x]
          simp only
          rw [if_pos hg2, if_pos hc2x]
        constructor
        · intro r side h
          rw [heq] at h
          simp only [Option.some.injEq, Prod.mk.injEq] at h
          obtain ⟨rfl, hside⟩ := h
          refine ⟨le_refl _, by omega, ?_, ?_, ?_⟩
          · intro s hs1 hs2
            omega
          · intro hst
            rw [← hside] at hst
            exact absurd hst (by simp)
          · intro _
            exact ⟨hc1, hc2⟩
        · rw [heq]
          constructor
          · intro h
            exact absurd h (by simp)
          · intro h
            exact absurd hc2 (h a (le_refl _) (by omega)).2
      · have hc1x : ¬(prevNeighborK p i q a = 1 ∨ P (prevNeighborK p i q a) = true) := hc1
        have hc2x : ¬(nextNeighborK p i q a = 1 ∨ P (nextNeighborK p i q a) = true) := hc2
        have heq : fcrCorrection p P i q (a :: List.range' (a + 1) n) =
            fcrCorrection p P i q (List.range' (a + 1) n) := by
          rw [fcrCorrection]
          simp only [if_pos hg1]
          rw [if_neg hc1x]
          simp only
          rw [if_pos hg2, if_neg hc2x]
        obtain ⟨ih1, ih2⟩ := ih (a + 1) (fun r hr1 hr2 => hb r (by omega) (by omega))
        constructor
        · intro r side h
          rw [heq] at h
          obtain ⟨hr1, hr2, hmin, hsp, hsn⟩ := ih1 r side h
          refine ⟨by omega, by omega, ?_, hsp, hsn⟩
          intro s hs1 hs2
          rcases Nat.eq_or_lt_of_le hs1 with rfl | hlt
          · exact ⟨hc1, hc2⟩
          · exact hmin s hlt hs2
        · rw [heq, ih2]
          constructor
          · intro h r hr1 hr2
            rcases Nat.eq_or_lt_of_le hr1 with rfl | hlt
            · exact ⟨hc1, hc2⟩
            · exact h r hlt (by omega)
          · intro h r hr1 hr2
            exact h r (by omega) (by omega)

/-- C3: for a composite anchor at index i with target prime q found by
the bounded search, when the whole correction window is in range
(maxR < i and i + maxR + 1 < length), find_correction_radius examines
radii 1 .. maxR in ascending order checking the previous side before the
next side: a correctedPrev or correctedNext status carries the first
radius (and first side in that order) whose neighbour distance is 1 or
prime, every smaller radius failing on both sides, and the status is
maxExceeded exactly when no radius up to maxR succeeds on either side. -/
theorem claim_C3_first_radius (p : List Nat) (P : Nat → Bool) (i safety maxR : Nat)
    (kmin q : Nat)
    (hiR : maxR < i) (hlen : i + maxR + 1 < p.length)
    (hsearch : fcrSearch P (p.getD i 0 + p.getD (i + 1) 0) 1 safety = some (kmin, q))
    (hcomp : 1 < kmin ∧ P kmin = false) :
    ((find_correction_radius p P i safety maxR).status = .correctedPrev →
      prevClean p P i q ((find_correction_radius p P i safety maxR).r) ∧
      1 ≤ (find_correction_radius p P i safety maxR).r ∧
      (find_correction_radius p P i safety maxR).r ≤ maxR ∧
      ∀ s, 1 ≤ s → s < (find_correction_radius p P i safety maxR).r →
        ¬prevClean p P i q s ∧ ¬nextClean p P i q s) ∧
    ((find_correction_radius p P i safety maxR).status = .correctedNext →
      ¬prevClean p P i q ((find_correction_radius p P i safety maxR).r) ∧
      nextClean p P i q ((find_correction_radius p P i safety maxR).r) ∧
      1 ≤ (find_correction_radius p P i safety maxR).r ∧
      (find_correction_radius p P i safety maxR).r ≤ maxR ∧
      ∀ s, 1 ≤ s → s < (find_correction_radius p P i safety maxR).r →
        ¬prevClean p P i q s ∧ ¬nextClean p P i q s) ∧
    ((find_correction_radius p P i safety maxR).status = .maxExceeded ↔
      ∀ r, 1 ≤ r → r ≤ maxR → ¬prevClean p P i q r ∧ ¬nextClean p P i q r) := by
  obtain ⟨hspec1, hspec2⟩ := fcrCorrection_range_spec p P i q maxR 1
    (fun r h1 h2 => ⟨by omega, by omega⟩)
  have hunf : find_correction_radius p P i safety maxR =
      match fcrCorrection p P i q (List.range' 1 maxR) with
      | some (radius, false) => ⟨kmin, radius, p.getD (i + 1) 0 - p.getD i 0, .correctedPrev⟩
      | some (radius, true) => ⟨kmin, radius, p.getD (i + 1) 0 - p.getD i 0, .correctedNext⟩
      | none => ⟨kmin, maxR, p.getD (i + 1) 0 - p.getD i 0, .maxExceeded⟩ := by
    rw [find_correction_radius]
    simp only [hsearch]
    rw [if_pos hcomp]
  rcases hcorr : fcrCorrection p P i q (List.range' 1 maxR) with _ | rs
  · rw [hcorr] at hunf
    refine ⟨?_, ?_, ?_⟩
    · intro hst
      rw [hunf] at hst
      exact absurd hst (by simp)
    · intro hst
      rw [hunf] at hst
      exact absurd hst (by simp)
    · rw [hunf]
      simp only
      constructor
      · intro _
        intro r h1 h2
        exact hspec2.mp hcorr r h1 (by omega)
      · intro _
        trivial
  · obtain ⟨r0, side0⟩ := rs
    obtain ⟨hr01, hr02, hmin, hsp, hsn⟩ := hspec1 r0 side0 hcorr
    cases side0 with
    | false =>
      rw [hcorr] at hunf
      refine ⟨?_, ?_, ?_⟩
      · intro _
        rw [hunf]
        simp only
        exact ⟨hsp rfl, hr01, by omega, fun s h1 h2 => hmin s h1 h2⟩
      · intro hst
        rw [hunf] at hst
        exact absurd hst (by simp)
      · constructor
        · intro hst
          rw [hunf] at hst
          exact absurd hst (by simp)
        · intro hall
          exact absurd (hsp rfl) (hall r0 hr01 (by omega)).1
    | true =>
      rw [hcorr] at hunf
      refine ⟨?_, ?_, ?_⟩
      · intro hst
        rw [hunf] at hst
        exact absurd hst (by simp)
      · intro _
        rw [hunf]
        simp only
        exact ⟨(hsn rfl).1, (hsn rfl).2, hr01, by omega, fun s h1 h2 => hmin s h1 h2⟩
      · constructor
        · intro hst
          rw [hunf] at hst
          exact absurd hst (by simp)
        · intro hall
          exact absurd (hsn rfl).2 (hall r0 hr01 (by omega)).2

/-- Witness for C3: in [7, 19, 11, 5, 13] at index 2 with safety 50 and
maxR 1, the anchor 16 = 11 + 5 has composite k_min 3 with target 13, the
radius-1 previous anchor is not clean, the radius-1 next anchor is clean,
and the result is correctedNext at radius 1. -/
theorem claim_C3_witness :
    ((find_correction_radius [7, 19, 11, 5, 13]
        (fun x => decide (x ∈ [7, 19, 11, 5, 13])) 2 50 1).status = .correctedPrev →
      prevClean [7, 19, 11, 5, 13] (fun x => decide (x ∈ [7, 19, 11, 5, 13])) 2 13
        ((find_correction_radius [7, 19, 11, 5, 13]
          (fun x => decide (x ∈ [7, 19, 11, 5, 13])) 2 50 1).r) ∧
      1 ≤ (find_correction_radius [7, 19, 11, 5, 13]
        (fun x => decide (x ∈ [7, 19, 11, 5, 13])) 2 50 1).r ∧
      (find_correction_radius [7, 19, 11, 5, 13]
        (fun x => decide (x ∈ [7, 19, 11, 5, 13])) 2 50 1).r ≤ 1 ∧
      ∀ s, 1 ≤ s → s < (find_correction_radius [7, 19, 11, 5, 13]
        (fun x => decide (x ∈ [7, 19, 11, 5, 13])) 2 50 1).r →
        ¬prevClean [7, 19, 11, 5, 13] (fun x => decide (x ∈ [7, 19, 11, 5, 13])) 2 13 s ∧
        ¬nextClean [7, 19, 11, 5, 13] (fun x => decide (x ∈ [7, 19, 11, 5, 13])) 2 13 s) ∧
    ((find_correction_radius [7, 19, 11, 5, 13]
        (fun x => decide (x ∈ [7, 19, 11, 5, 13])) 2 50 1).status = .correctedNext →
      ¬prevClean [7, 19, 11, 5, 13] (fun x => decide (x ∈ [7, 19, 11, 5, 13])) 2 13
        ((find_correction_radius [7, 19, 11, 5, 13]
          (fun x => decide (x ∈ [7, 19, 11, 5, 13])) 2 50 1).r) ∧
      nextClean [7, 19, 11, 5, 13] (fun x => decide (x ∈ [7, 19, 11, 5, 13])) 2 13
        ((find_correction_radius [7, 19, 11, 5, 13]
          (fun x => decide (x ∈ [7, 19, 11, 5, 13])) 2 50 1).r) ∧
      1 ≤ (find_correction_radius [7, 19, 11, 5, 13]
        (fun x => decide (x ∈ [7, 19, 11, 5, 13])) 2 50 1).r ∧
      (find_correction_radius [7, 19, 11, 5, 13]
        (fun x => decide (x ∈ [7, 19, 11, 5, 13])) 2 50 1).r ≤ 1 ∧
      ∀ s, 1 ≤ s → s < (find_correction_radius [7, 19, 11, 5, 13]
        (fun x => decide (x ∈ [7, 19, 11, 5, 13])) 2 50 1).r →
        ¬prevClean [7, 19, 11, 5, 13] (fun x => decide (x ∈ [7, 19, 11, 5, 13])) 2 13 s ∧
        ¬nextClean [7, 19, 11, 5, 13] (fun x => decide (x ∈ [7, 19, 11, 5, 13])) 2 13 s) ∧
    ((find_correction_radius [7, 19, 11, 5, 13]
        (fun x => decide (x ∈ [7, 19, 11, 5, 13])) 2 50 1).status = .maxExceeded ↔
      ∀ r, 1 ≤ r → r ≤ 1 →
        ¬prevClean [7, 19, 11, 5, 13] (fun x => decide (x ∈ [7, 19, 11, 5, 13])) 2 13 r ∧
        ¬nextClean [7, 19, 11, 5, 13] (fun x => decide (x ∈ [7, 19, 11, 5, 13])) 2 13 r) :=
  claim_C3_first_radius [7, 19, 11, 5, 13] (fun x => decide (x ∈ [7, 19, 11, 5, 13]))
    2 50 1 3 13 (by omega)
    (by simp only [List.length_cons, List.length_nil]; omega)
    (by decide) (by decide)

/-- Counterexample for C6: on the list [2, 3, 5000, 5003] the anchor
5000 + 5003 = 10003 at index 2 exhausts the 1000-step search, and the
scan state after processing it is exactly the initial state: the
exhausted anchor leaves no trace anywhere in the accumulated output, so
it is silently dropped and in particular never logged, contrary to the
claim. -/
theorem claim_C6_counterexample :
    (mod6SearchLoop (fun x => decide (x ∈ [2, 3, 5000, 5003])) (5000 + 5003) 1 1000).isNone
      = true ∧
    run_mod6_classifier_scan [2, 3, 5000, 5003] (fun x => decide (x ∈ [2, 3, 5000, 5003]))
      1000 [2] mod6Init = some mod6Init := by
  constructor
  · decide
  · rfl

/-- C6 (amended): every anchor whose nearest-prime search exceeds the
safety limit is excluded from the failure statistics and the scan
continues with the remaining anchors, but it is not logged: the run is
identical to one in which the anchor was never scanned. -/
theorem claim_C6_amended_exhausted_skipped (p : List Nat) (P : Nat → Bool)
    (searchLimit i : Nat) (rest : List Nat) (st : Mod6State) (pn pn1 : Nat)
    (h1 : p[i]? = some pn) (h2 : p[i + 1]? = some pn1)
    (hex : mod6SearchLoop P (pn + pn1) 1 searchLimit = none) :
    run_mod6_classifier_scan p P searchLimit (i :: rest) st =
      run_mod6_classifier_scan p P searchLimit rest st := by
  rw [run_mod6_classifier_scan, run_mod6_step]
  simp only [h1, h2, hex]

/-- Witness for the amended C6 at the counterexample input: scanning the
exhausted anchor at index 2 gives the same outcome as not scanning it. -/
theorem claim_C6_witness :
    run_mod6_classifier_scan [2, 3, 5000, 5003] (fun x => decide (x ∈ [2, 3, 5000, 5003]))
        1000 ([2] : List Nat) mod6Init =
      run_mod6_classifier_scan [2, 3, 5000, 5003] (fun x => decide (x ∈ [2, 3, 5000, 5003]))
        1000 ([] : List Nat) mod6Init :=
  claim_C6_amended_exhausted_skipped [2, 3, 5000, 5003]
    (fun x => decide (x ∈ [2, 3, 5000, 5003])) 1000 2 [] mod6Init 5000 5003
    (by rfl) (by rfl) (by decide)

/-- C8: the load operation parses every non-empty line as an integer in
file order (the successful result is exactly that parse, truncated only
by the configured analytical count, and untouched when the file is not
longer than it); it fails with NotFound when the path does not exist;
and it fails with TooSmall, before any scan begins, when fewer values
than the configured minimum are parsed. -/
theorem claim_C8_load_pipeline (cnt minC : Nat) (lines : List (List Char)) (vals : List Int)
    (hparse : (lines.filter (fun l => !(stripLine l == []))).mapM
      (fun l => parseInt (stripLine l)) = some vals) :
    loadPrimesChecked none cnt minC = .error .NotFound ∧
    ((vals.take cnt).length < minC →
      loadPrimesChecked (some lines) cnt minC = .error .TooSmall) ∧
    (minC ≤ (vals.take cnt).length →
      loadPrimesChecked (some lines) cnt minC = .ok (vals.take cnt)) ∧
    (vals.length ≤ cnt → vals.take cnt = vals) := by
  refine ⟨rfl, ?_, ?_, ?_⟩
  · intro h
    rw [loadPrimesChecked, load_primes_from_file]
    simp only [hparse]
    rw [if_pos h]
  · intro h
    rw [loadPrimesChecked, load_primes_from_file]
    simp only [hparse]
    rw [if_neg (by omega)]
  · intro h
    exact List.take_of_length_le h

/-- Witness for C8: the file with lines "2", "3", " 5", an empty line
and "7" parses to [2, 3, 5, 7]; the checked load succeeds with minimum
2, the missing file gives NotFound, and a minimum larger than 4 would
give TooSmall. -/
theorem claim_C8_witness :
    loadPrimesChecked none 10 2 = .error .NotFound ∧
    ((([2, 3, 5, 7] : List Int).take 10).length < 2 →
      loadPrimesChecked (some [['2'], ['3'], [' ', '5'], [], ['7']]) 10 2 =
        .error .TooSmall) ∧
    (2 ≤ (([2, 3, 5, 7] : List Int).take 10).length →
      loadPrimesChecked (some [['2'], ['3'], [' ', '5'], [], ['7']]) 10 2 =
        .ok (([2, 3, 5, 7] : List Int).take 10)) ∧
    (([2, 3, 5, 7] : List Int).length ≤ 10 →
      ([2, 3, 5, 7] : List Int).take 10 = [2, 3, 5, 7]) :=
  claim_C8_load_pipeline 10 2 [['2'], ['3'], [' ', '5'], [], ['7']] [2, 3, 5, 7] (by decide)

/-- C9: the scan statistics are deterministic across runs.  Two runs of
run_heuristic_analysis on the same prime sequence and configuration but
with different ambient randomness (the unseeded control-group draws,
modelled as oracles g and g2) produce the same true-anchor clean count;
and two completed runs of the main test_correction_law scan on the same
sequence and configuration produce identical aggregate states
(clean/composite counts, histogram and failure lists). -/
theorem claim_C9_deterministic (p : List Nat) (safety N : Nat) (g g2 : Nat → Nat)
    (p2 : List Nat) (P : Nat → Bool) (limit maxR maxPairs : Nat) (st st2 : ScanState)
    (h1 : test_correction_law p2 P limit maxR maxPairs = some st)
    (h2 : test_correction_law p2 P limit maxR maxPairs = some st2) :
    (run_heuristic_analysis p safety N g).observed =
      (run_heuristic_analysis p safety N g2).observed ∧ st = st2 := by
  refine ⟨rfl, ?_⟩
  rw [h1] at h2
  exact Option.some.inj h2

/-- Witness for C9: two runs with different random oracles on the first
five primes agree on the observed count, and two completed main scans on
the same input agree on the whole state. -/
theorem claim_C9_witness :
    (run_heuristic_analysis [2, 3, 5, 7, 11] 10 2 (fun _ => 0)).observed =
      (run_heuristic_analysis [2, 3, 5, 7, 11] 10 2 (fun _ => 5)).observed ∧
    initState = initState :=
  claim_C9_deterministic [2, 3, 5, 7, 11] 10 2 (fun _ => 0) (fun _ => 5)
    [2, 3, 5, 7, 11] (fun x => decide (x ∈ [2, 3, 5, 7, 11])) 100 1 1
    initState initState (by rfl) (by rfl)

end PAS

